import Mathlib

/-!
Verification of the `breakout1-kv-store` storage engine (`src/engine.rs`).

The engine is shallowly embedded over `List Nat` byte sequences:
the data file is a byte list, machine `u64` values are `Nat` with explicit
`% 2^64` where wrap-around matters, and the in-memory `HashMap` index is an
association list whose insert replaces any previous binding of the key.
-/

namespace KV

/-- `u64` modulus. -/
def U64 : Nat := 2 ^ 64

/-- Little-endian encoding of `n % 2^64` into exactly 8 bytes
(`u64::to_le_bytes`). -/
def u64LE (n : Nat) : List Nat :=
  [n % 256, n / 256 % 256, n / 256 ^ 2 % 256, n / 256 ^ 3 % 256,
   n / 256 ^ 4 % 256, n / 256 ^ 5 % 256, n / 256 ^ 6 % 256, n / 256 ^ 7 % 256]

/-- Little-endian value of a byte list (`u64::from_le_bytes` on 8 bytes). -/
def leNat (bs : List Nat) : Nat :=
  bs.foldr (fun b acc => b + 256 * acc) 0

@[simp] theorem u64LE_length (n : Nat) : (u64LE n).length = 8 := rfl

theorem leNat_u64LE (n : Nat) : leNat (u64LE n) = n % U64 := by
  simp only [u64LE, leNat, List.foldr, U64]
  omega

theorem leNat_u64LE_of_lt {n : Nat} (h : n < U64) : leNat (u64LE n) = n := by
  rw [leNat_u64LE, Nat.mod_eq_of_lt h]

/-- The `LogIndex` locator from `types.rs`: file offset of a record body and
the body's byte length.  Modelled from the spec: `types.rs` is not in the
sources, but §3 of the design gives the two `u64` fields exactly. -/
structure LogIndex where
  pos : Nat
  len : Nat
deriving DecidableEq, Repr

/-- The `DataFileEntry` record from `types.rs`: timestamp, key, and
value-or-tombstone.  Modelled from the spec: `types.rs` is not in the
sources, but §3 of the design gives the three fields exactly. -/
structure DataFileEntry where
  tstamp : Int
  key : List Nat
  value : Option (List Nat)
deriving DecidableEq, Repr

/-- Timestamp encoding: the `i64` reduced into `[0, 2^64)` and written
little-endian (two's complement bit pattern). -/
def encTstamp (t : Int) : List Nat :=
  u64LE (t % (U64 : Int)).toNat

/-- Timestamp decoding: read 8 little-endian bytes and reinterpret the top
bit as the sign (two's complement). -/
def decTstamp (bs : List Nat) : Int :=
  let n := leNat bs
  if n < 2 ^ 63 then (n : Int) else (n : Int) - (U64 : Int)

/-- `wincode::serialize` of a `DataFileEntry`.  Modelled from the spec:
`wincode` is an external crate; §4.2 requires a deterministic,
self-describing encoding in which a tombstone is distinguishable from an
empty value.  Fields in declaration order: 8-byte LE timestamp, 8-byte LE
key length then key bytes, a one-byte `Option` tag (0 = tombstone,
1 = present) followed for a present value by its 8-byte LE length and
bytes. -/
def encodeEntry (e : DataFileEntry) : List Nat :=
  encTstamp e.tstamp ++ u64LE e.key.length ++ e.key ++
    (match e.value with
     | none => [0]
     | some v => 1 :: (u64LE v.length ++ v))

/-- Split off exactly `n` leading bytes, failing when fewer are available
(the decoder's bounds checks). -/
def splitBytes (n : Nat) (bs : List Nat) : Option (List Nat × List Nat) :=
  if n ≤ bs.length then some (bs.take n, bs.drop n) else none

/-- `wincode::deserialize` of a `DataFileEntry` body.  Modelled from the
spec (see `encodeEntry`); the whole body must be consumed. -/
def decodeEntry (bs : List Nat) : Option DataFileEntry :=
  match splitBytes 8 bs with
  | none => none
  | some (tsb, r1) =>
    match splitBytes 8 r1 with
    | none => none
    | some (klb, r2) =>
      match splitBytes (leNat klb) r2 with
      | none => none
      | some (key, r3) =>
        match r3 with
        | 0 :: r4 => if r4 = [] then some ⟨decTstamp tsb, key, none⟩ else none
        | 1 :: r4 =>
          match splitBytes 8 r4 with
          | none => none
          | some (vlb, r5) =>
            match splitBytes (leNat vlb) r5 with
            | none => none
            | some (v, r6) =>
              if r6 = [] then some ⟨decTstamp tsb, key, some v⟩ else none
        | _ => none

theorem splitBytes_append (a b : List Nat) :
    splitBytes a.length (a ++ b) = some (a, b) := by
  simp [splitBytes]

theorem splitBytes_u64LE (n : Nat) (bs : List Nat) :
    splitBytes 8 (u64LE n ++ bs) = some (u64LE n, bs) := by
  simpa using splitBytes_append (u64LE n) bs

theorem splitBytes_self (bs : List Nat) : splitBytes bs.length bs = some (bs, []) := by
  simpa using splitBytes_append bs []

theorem decTstamp_encTstamp {t : Int} (h0 : -(2 ^ 63) ≤ t) (h1 : t < 2 ^ 63) :
    decTstamp (encTstamp t) = t := by
  have hU : (0 : Int) < (U64 : Int) := by norm_num [U64]
  have hmod0 : 0 ≤ t % (U64 : Int) := Int.emod_nonneg t (by norm_num [U64])
  have hmodlt : t % (U64 : Int) < (U64 : Int) := Int.emod_lt_of_pos t hU
  have htn : ((t % (U64 : Int)).toNat : Int) = t % (U64 : Int) :=
    Int.toNat_of_nonneg hmod0
  have hlt : (t % (U64 : Int)).toNat < U64 := by omega
  unfold decTstamp encTstamp
  rw [leNat_u64LE_of_lt hlt]
  rcases le_or_lt 0 t with hpos | hneg
  · have hmt : t % (U64 : Int) = t := Int.emod_eq_of_lt hpos (by
      have : (2 : Int) ^ 63 < (U64 : Int) := by norm_num [U64]
      omega)
    rw [hmt] at htn
    have hsmall : (t % (U64 : Int)).toNat < 2 ^ 63 := by
      rw [hmt] at hmod0 ⊢
      omega
    simp only [hsmall, if_true]
    omega
  · have hmt : t % (U64 : Int) = t + (U64 : Int) := by
      have h64 : (U64 : Int) = 2 ^ 64 := by norm_num [U64]
      have h1 : (t + (U64 : Int) * 1) % (U64 : Int) = t % (U64 : Int) :=
        Int.add_mul_emod_self_left t (U64 : Int) 1
      rw [mul_one] at h1
      have h2 : (t + (U64 : Int)) % (U64 : Int) = t + (U64 : Int) :=
        Int.emod_eq_of_lt (by omega) (by omega)
      omega
    rw [hmt] at htn
    have hbig : ¬ ((t % (U64 : Int)).toNat < 2 ^ 63) := by
      have h64 : (U64 : Int) = 2 ^ 64 := by norm_num [U64]
      omega
    simp only [hbig, if_false]
    omega

/-- Value-length side condition (Rust's `usize` makes it automatic). -/
def valueLenOk : Option (List Nat) → Prop
  | none => True
  | some v => v.length < U64

instance (v : Option (List Nat)) : Decidable (valueLenOk v) := by
  cases v
  · exact isTrue trivial
  · exact Nat.decLt _ _

/-- Side conditions under which the codec is exact: key, value and encoded
body lengths fit in a `u64`, as Rust's `usize` guarantees. -/
def EntryOk (e : DataFileEntry) : Prop :=
  e.key.length < U64 ∧ valueLenOk e.value ∧ (encodeEntry e).length < U64

instance : DecidablePred EntryOk := fun e => by
  unfold EntryOk
  infer_instance

theorem decodeEntry_encodeEntry (e : DataFileEntry) (hk : e.key.length < U64)
    (hv : valueLenOk e.value) :
    decodeEntry (encodeEntry e) =
      some ⟨decTstamp (encTstamp e.tstamp), e.key, e.value⟩ := by
  obtain ⟨t, k, v⟩ := e
  cases v with
  | none =>
    show decodeEntry (encTstamp t ++ u64LE k.length ++ k ++ [0]) = _
    rw [show encTstamp t ++ u64LE k.length ++ k ++ [0] =
          encTstamp t ++ (u64LE k.length ++ (k ++ [0])) by simp]
    unfold decodeEntry encTstamp
    rw [splitBytes_u64LE]
    simp only
    rw [splitBytes_u64LE]
    simp only [leNat_u64LE_of_lt hk, splitBytes_append]
    simp [encTstamp]
  | some v =>
    show decodeEntry (encTstamp t ++ u64LE k.length ++ k ++
        (1 :: (u64LE v.length ++ v))) = _
    rw [show encTstamp t ++ u64LE k.length ++ k ++ (1 :: (u64LE v.length ++ v)) =
          encTstamp t ++ (u64LE k.length ++ (k ++ (1 :: (u64LE v.length ++ v)))) by simp]
    unfold decodeEntry encTstamp
    rw [splitBytes_u64LE]
    simp only
    rw [splitBytes_u64LE]
    simp only [leNat_u64LE_of_lt hk, splitBytes_append]
    rw [splitBytes_u64LE]
    simp only [leNat_u64LE_of_lt (show v.length < U64 from hv), splitBytes_self]
    rfl

/-- Full round trip when the timestamp fits in `i64`. -/
theorem decodeEntry_encodeEntry_exact (e : DataFileEntry)
    (ht0 : -(2 ^ 63) ≤ e.tstamp) (ht1 : e.tstamp < 2 ^ 63)
    (hk : e.key.length < U64) (hv : valueLenOk e.value) :
    decodeEntry (encodeEntry e) = some e := by
  rw [decodeEntry_encodeEntry e hk hv, decTstamp_encTstamp ht0 ht1]

/-! ## The in-memory index

`HashMap<Vec<u8>, LogIndex>` is modelled as an association list whose
`insert` replaces any previous binding; lookups are the observable
behaviour. -/

/-- The index type: key bytes to locator. -/
abbrev Index := List (List Nat × LogIndex)

/-- `HashMap::get`. -/
def idxLookup : Index → List Nat → Option LogIndex
  | [], _ => none
  | (k, v) :: rest, q => if q = k then some v else idxLookup rest q

/-- `HashMap::remove`. -/
def idxRemove : Index → List Nat → Index
  | [], _ => []
  | (k, v) :: rest, q => if k = q then idxRemove rest q else (k, v) :: idxRemove rest q

/-- `HashMap::insert` (replace any previous binding of the key). -/
def idxInsert (idx : Index) (k : List Nat) (v : LogIndex) : Index :=
  (k, v) :: idxRemove idx k

theorem idxLookup_idxRemove (idx : Index) (k q : List Nat) :
    idxLookup (idxRemove idx k) q = if q = k then none else idxLookup idx q := by
  induction idx with
  | nil => simp [idxRemove, idxLookup]
  | cons p rest ih =>
    obtain ⟨k0, v0⟩ := p
    by_cases hk : k0 = k
    · subst hk
      simp only [idxRemove, if_pos rfl, ih, idxLookup]
      by_cases hq : q = k0 <;> simp_all
    · simp only [idxRemove, if_neg hk, idxLookup, ih]
      by_cases hq1 : q = k <;> by_cases hq2 : q = k0 <;> simp_all

theorem idxLookup_idxInsert (idx : Index) (k q : List Nat) (v : LogIndex) :
    idxLookup (idxInsert idx k v) q = if q = k then some v else idxLookup idx q := by
  unfold idxInsert
  by_cases hq : q = k
  · simp [idxLookup, hq]
  · simp only [idxLookup, idxLookup_idxRemove, if_neg hq]


/-! ## Files and framing -/

/-- A positioned exact read (`seek` + `read_exact`): `none` models the
`UnexpectedEof` failure when fewer than `len` bytes remain. -/
def readAt (file : List Nat) (pos len : Nat) : Option (List Nat) :=
  if pos + len ≤ file.length then some ((file.drop pos).take len) else none

theorem readAt_some {file : List Nat} {pos len : Nat} {d : List Nat}
    (h : readAt file pos len = some d) :
    pos + len ≤ file.length ∧ d = (file.drop pos).take len ∧ d.length = len := by
  unfold readAt at h
  by_cases hle : pos + len ≤ file.length
  · rw [if_pos hle] at h
    refine ⟨hle, by simpa using h.symm, ?_⟩
    cases h
    simp only [List.length_take, List.length_drop]
    omega
  · rw [if_neg hle] at h
    cases h

theorem readAt_append {file g : List Nat} {pos len : Nat} {d : List Nat}
    (h : readAt file pos len = some d) : readAt (file ++ g) pos len = some d := by
  obtain ⟨hle, hd, -⟩ := readAt_some h
  unfold readAt
  rw [if_pos (by simp; omega)]
  rw [List.drop_append_of_le_length (by omega)]
  rw [List.take_append_of_le_length (by simp only [List.length_drop]; omega)]
  rw [← hd]

theorem readAt_exact (pre mid post : List Nat) :
    readAt (pre ++ mid ++ post) pre.length mid.length = some mid := by
  unfold readAt
  rw [if_pos (by simp only [List.length_append]; omega)]
  rw [List.append_assoc, List.drop_left, List.take_left]

/-- The 8-byte length prefix followed by the record body
(one framed record on disk). -/
def frame (body : List Nat) : List Nat := u64LE body.length ++ body

@[simp] theorem frame_length (body : List Nat) :
    (frame body).length = 8 + body.length := by
  simp [frame]

/-- `FILE_HEADER_MAGIC`: the bytes of `KVS1`. -/
def magicBytes : List Nat := [75, 86, 83, 49]

/-- The 12-byte file header: magic then little-endian threshold. -/
def header (threshold : Nat) : List Nat := magicBytes ++ u64LE threshold

@[simp] theorem header_length (t : Nat) : (header t).length = 12 := rfl

/-- A whole data file: header then framed record bodies. -/
def logFile (threshold : Nat) (bodies : List (List Nat)) : List Nat :=
  header threshold ++ (bodies.map frame).flatten

/-- The threshold word stored in a file's header (bytes 4..12). -/
def headerThreshold (file : List Nat) : Nat := leNat ((file.drop 4).take 8)

theorem headerThreshold_logFile {t : Nat} (h : t < U64) (bodies : List (List Nat)) :
    headerThreshold (logFile t bodies) = t := by
  unfold headerThreshold logFile header magicBytes
  rw [List.append_assoc]
  rw [show (4 : Nat) = ([75, 86, 83, 49] : List Nat).length from rfl, List.drop_left]
  rw [show (8 : Nat) = (u64LE t).length from rfl, List.take_left]
  exact leNat_u64LE_of_lt h

/-- `DEFAULT_COMPACT_THRESHOLD` from `constants.rs`. -/
def defaultCompactThreshold : Nat := 1024 * 1024

/-! ## The engine -/

/-- The `Engine` state: the data file's bytes on disk, the in-memory index,
the tracked logical file size, the compaction threshold, and the number of
pooled read handles.  Concurrency is elided (claims here are about the
single-threaded semantics); each lock-protected field is plain state. -/
structure Engine where
  fileData : List Nat
  index : Index
  fileSize : Nat
  compactThreshold : Nat
  readerPool : Nat
deriving DecidableEq, Repr

/-- One step of the `compact` copy loop (engine.rs lines 287-305): read the
record body through the live handle, append it framed to the tmp file, and
record the fresh locator.  `body` is the tmp file's contents past the
header, so the body position captured after writing the length prefix is
`12 + body.length + 8`. -/
def compactEntries (file : List Nat) :
    List (List Nat × LogIndex) → List Nat → Nat →
      Option (List Nat × Index × Nat)
  | [], body, size => some (body, [], size)
  | (k, li) :: rest, body, size =>
    match readAt file li.pos li.len with
    | none => none
    | some data =>
      match compactEntries file rest (body ++ frame data) (size + 8 + data.length) with
      | none => none
      | some (finalBody, idxRest, finalSize) =>
        some (finalBody, (k, ⟨12 + body.length + 8, data.length⟩) :: idxRest, finalSize)

/-- `Engine::compact` (engine.rs lines 260-335) in the absence of OS
failures: rewrite the live records into a fresh file, swap it in, reset the
index and reader pool, and double the threshold (saturating at `u64::MAX`,
with the header rewritten) when the rewrite kept more than 3/4 of the old
size.  The size comparison multiplies in `u64`, hence the `% 2^64`.
`none` models the propagated I/O error when a locator read fails. -/
def Engine.compact (e : Engine) : Option Engine :=
  match compactEntries e.fileData e.index [] 12 with
  | none => none
  | some (body, newIndex, newSize) =>
    let e1 : Engine :=
      { fileData := header e.compactThreshold ++ body
        index := newIndex
        fileSize := newSize
        compactThreshold := e.compactThreshold
        readerPool := 4 }
    if newSize * 4 % U64 > e.fileSize * 3 % U64 then
      let t1 := min (e.compactThreshold * 2) (U64 - 1)
      some { e1 with compactThreshold := t1, fileData := header t1 ++ body }
    else
      some e1

/-- `Engine::set` (engine.rs lines 151-194): append the framed record at
the end of the file (the body position is the file end plus the 8-byte
prefix), bump the tracked size, insert the locator, then compact when the
new tracked size reaches the threshold. -/
def Engine.set (e : Engine) (tstamp : Int) (key value : List Nat) : Option Engine :=
  let data := encodeEntry ⟨tstamp, key, some value⟩
  let newSize := e.fileSize + 8 + data.length
  let e1 : Engine :=
    { fileData := e.fileData ++ frame data
      index := idxInsert e.index key ⟨e.fileData.length + 8, data.length⟩
      fileSize := newSize
      compactThreshold := e.compactThreshold
      readerPool := e.readerPool }
  if newSize ≥ e.compactThreshold then e1.compact else some e1

/-- `Engine::del` (engine.rs lines 196-222): append a tombstone record,
bump the tracked size, and remove the key from the index.  No compaction
check is performed. -/
def Engine.del (e : Engine) (tstamp : Int) (key : List Nat) : Engine :=
  let data := encodeEntry ⟨tstamp, key, none⟩
  { fileData := e.fileData ++ frame data
    index := idxRemove e.index key
    fileSize := e.fileSize + 8 + data.length
    compactThreshold := e.compactThreshold
    readerPool := e.readerPool }

/-- The value `Engine::get` computes from the file and index (engine.rs
lines 224-258): index lookup, positioned read, decode.  Errors model the
`read_exact` and decode failures. -/
def getPure (file : List Nat) (idx : Index) (key : List Nat) :
    Except String (Option (List Nat)) :=
  match idxLookup idx key with
  | none => .ok none
  | some li =>
    match readAt file li.pos li.len with
    | none => .error "failed to fill whole buffer"
    | some data =>
      match decodeEntry data with
      | none => .error "invalid data"
      | some entry => .ok entry.value

/-- The reader-pool transition of `Engine::get`: a handle is popped (or a
fresh one opened when the pool is empty), and returned only when the read
succeeded and the pool holds fewer than 8 handles; on a failed read the
handle is dropped with the early return. -/
def getPool (pool : Nat) (lookedUp readOk : Bool) : Nat :=
  if lookedUp then
    if readOk then (if pool - 1 < 8 then pool - 1 + 1 else pool - 1) else pool - 1
  else pool

/-- `Engine::get` with its state effect: the result plus the engine after
the call (only the reader pool can change). -/
def Engine.get (e : Engine) (key : List Nat) :
    Except String (Option (List Nat)) × Engine :=
  match idxLookup e.index key with
  | none => (.ok none, e)
  | some li =>
    let readOk := (readAt e.fileData li.pos li.len).isSome
    (getPure e.fileData e.index key,
      { e with readerPool := getPool e.readerPool true readOk })

/-- The effect of one decoded entry on the index being rebuilt
(engine.rs lines 129-142): a present value upserts the locator, a
tombstone removes the key. -/
def applyEntry (idx : Index) (en : DataFileEntry) (li : LogIndex) : Index :=
  match en.value with
  | some _ => idxInsert idx en.key li
  | none => idxRemove idx en.key

/-- The fuel-driven body of the `rebuild_index` scan (engine.rs lines
108-143); `scanRecords` below supplies fuel that cannot run out. -/
def scanAux (file : List Nat) : Nat → Nat → Index → Option (Index × Nat)
  | 0, _, idx => some (idx, file.length)
  | fuel + 1, pos, idx =>
    match readAt file pos 8 with
    | none => some (idx, file.length)
    | some lenBuf =>
      match readAt file (pos + 8) (leNat lenBuf) with
      | none => some (idx, file.length)
      | some data =>
        match decodeEntry data with
        | none => none
        | some entry =>
          scanAux file fuel (pos + 8 + leNat lenBuf)
            (applyEntry idx entry ⟨pos + 8, leNat lenBuf⟩)

/-- The `rebuild_index` scan from `pos`: repeatedly read an 8-byte length
and a body; an `UnexpectedEof` at either read stops cleanly with the
stream position (which `read_exact` has advanced to the end of file);
a decode failure is an `invalid data` error (`none`).  The fuel
`file.length + 1` never runs out: every iteration consumes at least
8 bytes (`scanAux_fuel` below). -/
def scanRecords (file : List Nat) (pos : Nat) (idx : Index) : Option (Index × Nat) :=
  scanAux file (file.length + 1) pos idx

/-- `Engine::load` over the file bytes, with the initial threshold used
when the file is new (`ensure_header` parameter).  Returns the engine or
the error message. -/
def loadBytes (file : List Nat) (threshold : Nat) : Except String Engine :=
  if file.length = 0 then
    let f := header threshold
    match scanRecords f 12 [] with
    | none => .error "invalid data"
    | some (idx, endPos) =>
      .ok ⟨f, idx, endPos, threshold, 4⟩
  else if file.length < 12 then
    .error "invalid data.db: missing header"
  else if file.take 4 ≠ magicBytes then
    .error "invalid data.db: unsupported format (missing KVS1 header)"
  else
    let t := headerThreshold file
    match scanRecords file 12 [] with
    | none => .error "invalid data"
    | some (idx, endPos) =>
      .ok ⟨file, idx, endPos, t, 4⟩

/-- `Engine::load` (engine.rs lines 23-52): `ensure_header` with the
default threshold, then the rebuild scan. -/
def Engine.load (file : List Nat) : Except String Engine :=
  loadBytes file defaultCompactThreshold

/-- Modelled from the spec: `Engine::load_with_threshold` is called by the
benchmarks but its definition is not among the sources; §6 specifies it as
`load` with the supplied initial threshold for a new file, the stored
threshold taking precedence for an existing file — exactly `ensure_header`
with `T` in place of the default. -/
def Engine.loadWithThreshold (file : List Nat) (threshold : Nat) : Except String Engine :=
  loadBytes file threshold

/-! ## Scan lemmas -/

theorem readAt_none_of_short {file : List Nat} {pos len : Nat}
    (h : file.length < pos + len) : readAt file pos len = none := by
  unfold readAt
  rw [if_neg (by omega)]

theorem scanAux_fuel (file : List Nat) :
    ∀ f1 f2 pos idx, file.length < f1 + pos → file.length < f2 + pos →
      scanAux file f1 pos idx = scanAux file f2 pos idx := by
  intro f1
  induction f1 with
  | zero =>
    intro f2 pos idx h1 h2
    have hnone : readAt file pos 8 = none := readAt_none_of_short (by omega)
    cases f2 with
    | zero => rfl
    | succ f2 => simp [scanAux, hnone]
  | succ f1 ih =>
    intro f2 pos idx h1 h2
    cases f2 with
    | zero =>
      have hnone : readAt file pos 8 = none := readAt_none_of_short (by omega)
      simp [scanAux, hnone]
    | succ f2 =>
      simp only [scanAux]
      cases hr : readAt file pos 8 with
      | none => rfl
      | some lenBuf =>
        simp only
        cases hd : readAt file (pos + 8) (leNat lenBuf) with
        | none => rfl
        | some data =>
          simp only
          cases hdec : decodeEntry data with
          | none => rfl
          | some entry =>
            have hle := (readAt_some hd).1
            exact ih f2 (pos + 8 + leNat lenBuf) _ (by omega) (by omega)

theorem scanRecords_step (file : List Nat) (pos : Nat) (idx : Index) :
    scanRecords file pos idx =
      match readAt file pos 8 with
      | none => some (idx, file.length)
      | some lenBuf =>
        match readAt file (pos + 8) (leNat lenBuf) with
        | none => some (idx, file.length)
        | some data =>
          match decodeEntry data with
          | none => none
          | some entry =>
            scanRecords file (pos + 8 + leNat lenBuf)
              (applyEntry idx entry ⟨pos + 8, leNat lenBuf⟩)
  := by
  show scanAux file (file.length + 1) pos idx = _
  simp only [scanAux]
  cases hr : readAt file pos 8 with
  | none => rfl
  | some lenBuf =>
    simp only
    cases hd : readAt file (pos + 8) (leNat lenBuf) with
    | none => rfl
    | some data =>
      simp only
      cases hdec : decodeEntry data with
      | none => rfl
      | some entry =>
        have hle := (readAt_some hd).1
        exact scanAux_fuel file file.length (file.length + 1)
          (pos + 8 + leNat lenBuf) (applyEntry idx entry ⟨pos + 8, leNat lenBuf⟩)
          (by omega) (by omega)

/-- The effect of replaying one framed record body that starts at `pos` on
the rebuilt index. -/
def replayStep (pos : Nat) (idx : Index) (b : List Nat) : Index :=
  match decodeEntry b with
  | none => idx
  | some en => applyEntry idx en ⟨pos + 8, b.length⟩

/-- Replaying a list of record bodies laid out from `pos`. -/
def replayBodies : Nat → List (List Nat) → Index → Index
  | _, [], idx => idx
  | pos, b :: rest, idx => replayBodies (pos + 8 + b.length) rest (replayStep pos idx b)

/-- A decodable body whose length fits the `u64` length prefix. -/
def GoodBody (b : List Nat) : Prop := b.length < U64 ∧ (decodeEntry b).isSome

/-- A tail after which the scan stops cleanly: it is too short for the
8-byte length prefix, or too short for the body length the prefix
announces (`UnexpectedEof` at either read). -/
def TornTail (tail : List Nat) : Prop := tail.length < 8 + leNat (tail.take 8)

instance (tail : List Nat) : Decidable (TornTail tail) := by
  unfold TornTail
  exact Nat.decLt _ _

theorem scan_frames :
    ∀ (bodies : List (List Nat)) (pre tail : List Nat) (idx : Index),
      (∀ b ∈ bodies, GoodBody b) → TornTail tail →
      scanRecords (pre ++ (bodies.map frame).flatten ++ tail) pre.length idx
        = some (replayBodies pre.length bodies idx,
                (pre ++ (bodies.map frame).flatten ++ tail).length) := by
  intro bodies
  induction bodies with
  | nil =>
    intro pre tail idx hgood htorn
    simp only [List.map_nil, List.flatten_nil, List.append_nil]
    rw [scanRecords_step]
    by_cases h8 : 8 ≤ tail.length
    · have hr : readAt (pre ++ tail) pre.length 8 = some (tail.take 8) := by
        have := readAt_exact pre (tail.take 8) (tail.drop 8)
        rw [List.append_assoc, List.take_append_drop] at this
        simpa [List.length_take, Nat.min_eq_left h8] using this
      have hd : readAt (pre ++ tail) (pre.length + 8) (leNat (tail.take 8)) = none := by
        apply readAt_none_of_short
        simp only [List.length_append]
        unfold TornTail at htorn
        omega
      simp only [hr, hd, replayBodies]
    · have hr : readAt (pre ++ tail) pre.length 8 = none := by
        apply readAt_none_of_short
        simp only [List.length_append]
        omega
      simp only [hr, replayBodies]
  | cons b rest ih =>
    intro pre tail idx hgood htorn
    have hb : GoodBody b := hgood b (by simp)
    obtain ⟨hblen, hbdec⟩ := hb
    obtain ⟨en, hen⟩ := Option.isSome_iff_exists.mp hbdec
    have hfile : pre ++ ((b :: rest).map frame).flatten ++ tail
        = pre ++ u64LE b.length ++ (b ++ ((rest.map frame).flatten ++ tail)) := by
      simp [frame, List.append_assoc]
    rw [hfile, scanRecords_step]
    have hr : readAt (pre ++ u64LE b.length ++ (b ++ ((rest.map frame).flatten ++ tail)))
        pre.length 8 = some (u64LE b.length) := by
      have := readAt_exact pre (u64LE b.length) (b ++ ((rest.map frame).flatten ++ tail))
      simpa using this
    have hd : readAt (pre ++ u64LE b.length ++ (b ++ ((rest.map frame).flatten ++ tail)))
        (pre.length + 8) b.length = some b := by
      have := readAt_exact (pre ++ u64LE b.length) b ((rest.map frame).flatten ++ tail)
      rw [List.append_assoc (pre ++ u64LE b.length)] at this
      simpa [List.length_append] using this
    simp only [hr, leNat_u64LE_of_lt hblen, hd, hen]
    have hih := ih (pre ++ frame b) tail (replayStep pre.length idx b)
      (fun x hx => hgood x (by simp [hx])) htorn
    have hlen : (pre ++ frame b).length = pre.length + 8 + b.length := by
      simp [frame]
      omega
    have hfile2 : (pre ++ frame b) ++ (rest.map frame).flatten ++ tail
        = pre ++ u64LE b.length ++ (b ++ ((rest.map frame).flatten ++ tail)) := by
      simp [frame, List.append_assoc]
    rw [hfile2, hlen] at hih
    simp only [replayStep, hen] at hih
    simp only [replayBodies, replayStep, hen]
    exact hih

/-! ## The abstract map and the reachability invariant -/

/-- Pointwise update of an abstract key-value map. -/
def mupdate (m : List Nat → Option (List Nat)) (k : List Nat) (v : Option (List Nat)) :
    List Nat → Option (List Nat) :=
  fun q => if q = k then v else m q

/-- The abstract map produced by a history of entries, starting from `m0`. -/
def mFoldFrom (m0 : List Nat → Option (List Nat)) :
    List DataFileEntry → (List Nat → Option (List Nat))
  | [] => m0
  | en :: rest => mFoldFrom (mupdate m0 en.key en.value) rest

/-- The abstract map of a history of entries: the value of the last
entry for each key, tombstones removing it. -/
def mFold (entries : List DataFileEntry) : List Nat → Option (List Nat) :=
  mFoldFrom (fun _ => none) entries

theorem mFoldFrom_append (m0 : List Nat → Option (List Nat))
    (es : List DataFileEntry) (en : DataFileEntry) :
    mFoldFrom m0 (es ++ [en]) =
      mupdate (mFoldFrom m0 es) en.key en.value := by
  induction es generalizing m0 with
  | nil => rfl
  | cons e0 rest ih => simpa [mFoldFrom] using ih (mupdate m0 e0.key e0.value)

/-- The index/file/map agreement at the heart of the invariant: a missing
key has no abstract value, and a bound key's locator reads back as the
encoding of a live record carrying the abstract value. -/
def IdxMatches (file : List Nat) (idx : Index) (m : List Nat → Option (List Nat)) : Prop :=
  ∀ k,
    (idxLookup idx k = none → m k = none) ∧
    (∀ li, idxLookup idx k = some li →
      ∃ t v, m k = some v ∧ EntryOk ⟨t, k, some v⟩ ∧
        readAt file li.pos li.len = some (encodeEntry ⟨t, k, some v⟩))

/-- Two indexes with the same lookups. -/
def IdxEquiv (i1 i2 : Index) : Prop := ∀ k, idxLookup i1 k = idxLookup i2 k

theorem idxMatches_of_equiv {file : List Nat} {i1 i2 : Index}
    {m : List Nat → Option (List Nat)} (he : IdxEquiv i1 i2)
    (h : IdxMatches file i2 m) : IdxMatches file i1 m := by
  intro k
  rw [show idxLookup i1 k = idxLookup i2 k from he k]
  exact h k

/-- Keys bound in an index. -/
def idxKeys (idx : Index) : List (List Nat) := idx.map Prod.fst

theorem idxLookup_eq_none_iff (idx : Index) (k : List Nat) :
    idxLookup idx k = none ↔ k ∉ idxKeys idx := by
  induction idx with
  | nil => simp [idxLookup, idxKeys]
  | cons p rest ih =>
    obtain ⟨k0, v0⟩ := p
    by_cases hq : k = k0
    · subst hq
      simp [idxLookup, idxKeys]
    · simp only [idxLookup, if_neg hq, idxKeys, List.map_cons, List.mem_cons, ih]
      constructor
      · rintro hn (h1 | h1)
        · exact hq h1
        · exact hn h1
      · intro hn h1
        exact hn (Or.inr h1)

theorem idxLookup_of_mem {idx : Index} {p : List Nat × LogIndex}
    (hnd : (idxKeys idx).Nodup) (hp : p ∈ idx) : idxLookup idx p.1 = some p.2 := by
  induction idx with
  | nil => cases hp
  | cons q rest ih =>
    obtain ⟨k0, v0⟩ := q
    simp only [idxKeys, List.map_cons, List.nodup_cons] at hnd
    rcases List.mem_cons.mp hp with hp1 | hp1
    · subst hp1
      simp [idxLookup]
    · have hk : p.1 ≠ k0 := by
        intro he
        exact hnd.1 (he ▸ (List.mem_map_of_mem Prod.fst hp1))
      simp only [idxLookup, if_neg hk]
      exact ih hnd.2 hp1

theorem idxRemove_cons (k0 : List Nat) (v0 : LogIndex) (rest : Index) (q : List Nat) :
    idxRemove ((k0, v0) :: rest) q =
      if k0 = q then idxRemove rest q else (k0, v0) :: idxRemove rest q := rfl

theorem mem_idxKeys_idxRemove (idx : Index) (k q : List Nat) :
    q ∈ idxKeys (idxRemove idx k) ↔ q ∈ idxKeys idx ∧ q ≠ k := by
  induction idx with
  | nil => simp [idxRemove, idxKeys]
  | cons p rest ih =>
    obtain ⟨k0, v0⟩ := p
    have hcons : ∀ (pr : Index) (a : List Nat × LogIndex),
        idxKeys (a :: pr) = a.1 :: idxKeys pr := fun pr a => rfl
    by_cases hk : k0 = k
    · subst hk
      rw [idxRemove_cons, if_pos rfl, ih, hcons, List.mem_cons]
      constructor
      · rintro ⟨h1, h2⟩
        exact ⟨Or.inr h1, h2⟩
      · rintro ⟨h1 | h1, h2⟩
        · exact absurd h1 h2
        · exact ⟨h1, h2⟩
    · rw [idxRemove_cons, if_neg hk, hcons, hcons, List.mem_cons, List.mem_cons, ih]
      constructor
      · rintro (h | ⟨h1, h2⟩)
        · refine ⟨Or.inl h, ?_⟩
          rw [h]
          exact fun he => hk he
        · exact ⟨Or.inr h1, h2⟩
      · rintro ⟨h1 | h1, h2⟩
        · exact Or.inl h1
        · exact Or.inr ⟨h1, h2⟩

theorem idxRemove_nodup :
    ∀ (idx : Index) (k : List Nat), (idxKeys idx).Nodup →
      (idxKeys (idxRemove idx k)).Nodup := by
  intro idx
  induction idx with
  | nil =>
    intro k h
    simp [idxRemove, idxKeys]
  | cons p rest ih =>
    intro k h
    obtain ⟨k0, v0⟩ := p
    simp only [idxKeys, List.map_cons, List.nodup_cons] at h
    by_cases hk : k0 = k
    · subst hk
      simp only [idxRemove, if_pos rfl]
      exact ih _ h.2
    · simp only [idxRemove, if_neg hk, idxKeys, List.map_cons, List.nodup_cons]
      exact ⟨fun hm => h.1 ((mem_idxKeys_idxRemove rest k k0).mp hm).1, ih _ h.2⟩

theorem idxInsert_nodup (idx : Index) (k : List Nat) (v : LogIndex)
    (h : (idxKeys idx).Nodup) : (idxKeys (idxInsert idx k v)).Nodup := by
  unfold idxInsert
  simp only [idxKeys, List.map_cons, List.nodup_cons]
  exact ⟨fun hm => ((mem_idxKeys_idxRemove idx k k).mp hm).2 rfl,
    idxRemove_nodup idx k h⟩

theorem applyEntry_nodup {idx : Index} (h : (idxKeys idx).Nodup)
    (en : DataFileEntry) (li : LogIndex) : (idxKeys (applyEntry idx en li)).Nodup := by
  unfold applyEntry
  cases en.value
  · exact idxRemove_nodup _ _ h
  · exact idxInsert_nodup _ _ _ h

theorem replayBodies_nodup (bodies : List (List Nat)) :
    ∀ pos idx, (idxKeys idx).Nodup → (idxKeys (replayBodies pos bodies idx)).Nodup := by
  induction bodies with
  | nil => intro pos idx h; exact h
  | cons b rest ih =>
    intro pos idx h
    unfold replayBodies replayStep
    cases decodeEntry b
    · exact ih _ _ h
    · exact ih _ _ (applyEntry_nodup h _ _)

/-- Size of a list of framed bodies on disk. -/
theorem flatten_frames_append (bs : List (List Nat)) (b : List Nat) :
    ((bs ++ [b]).map frame).flatten = (bs.map frame).flatten ++ frame b := by
  simp

theorem replayBodies_append (bs : List (List Nat)) (b : List Nat) :
    ∀ pos idx, replayBodies pos (bs ++ [b]) idx =
      replayStep (pos + (bs.map frame).flatten.length) (replayBodies pos bs idx) b := by
  induction bs with
  | nil =>
    intro pos idx
    simp [replayBodies]
  | cons b0 rest ih =>
    intro pos idx
    rw [show (b0 :: rest) ++ [b] = b0 :: (rest ++ [b]) from rfl]
    rw [show replayBodies pos (b0 :: (rest ++ [b])) idx
          = replayBodies (pos + 8 + b0.length) (rest ++ [b]) (replayStep pos idx b0) from rfl]
    rw [ih]
    rw [show replayBodies pos (b0 :: rest) idx
          = replayBodies (pos + 8 + b0.length) rest (replayStep pos idx b0) from rfl]
    congr 1
    simp [frame]
    omega

/-- The reachability invariant: the file is a well-formed log of encoded
entries, the header carries the in-memory threshold, the tracked size is
the file length, and the index has the lookups of replaying the log. -/
structure Inv (e : Engine) (entries : List DataFileEntry) : Prop where
  hfile : e.fileData = logFile e.compactThreshold (entries.map encodeEntry)
  hthr : e.compactThreshold < U64
  hok : ∀ en ∈ entries, EntryOk en
  hsize : e.fileSize = e.fileData.length
  hnodup : (idxKeys e.index).Nodup
  hequiv : IdxEquiv e.index (replayBodies 12 (entries.map encodeEntry) [])

theorem entry_eta (en : DataFileEntry) :
    (⟨en.tstamp, en.key, en.value⟩ : DataFileEntry) = en := rfl

theorem readAt_frame_body (pre b post : List Nat) :
    readAt (pre ++ frame b ++ post) (pre.length + 8) b.length = some b := by
  have := readAt_exact (pre ++ u64LE b.length) b post
  rw [show pre ++ frame b ++ post = pre ++ u64LE b.length ++ b ++ post from by
    simp [frame]]
  simpa using this

theorem replay_matches_gen :
    ∀ (ents : List DataFileEntry) (pre post : List Nat) (idx0 : Index)
      (m0 : List Nat → Option (List Nat)),
      (∀ en ∈ ents, EntryOk en) →
      IdxMatches (pre ++ ((ents.map encodeEntry).map frame).flatten ++ post) idx0 m0 →
      IdxMatches (pre ++ ((ents.map encodeEntry).map frame).flatten ++ post)
        (replayBodies pre.length (ents.map encodeEntry) idx0) (mFoldFrom m0 ents) := by
  intro ents
  induction ents with
  | nil =>
    intro pre post idx0 m0 hok h
    exact h
  | cons en rest ih =>
    intro pre post idx0 m0 hok h
    have hen : EntryOk en := hok en (by simp)
    have hdec : decodeEntry (encodeEntry en) =
        some ⟨decTstamp (encTstamp en.tstamp), en.key, en.value⟩ :=
      decodeEntry_encodeEntry en hen.1 hen.2.1
    have hfile : pre ++ (((en :: rest).map encodeEntry).map frame).flatten ++ post
        = (pre ++ frame (encodeEntry en)) ++ ((rest.map encodeEntry).map frame).flatten
            ++ post := by
      simp [List.append_assoc]
    have hstep : replayBodies pre.length ((en :: rest).map encodeEntry) idx0
        = replayBodies (pre.length + 8 + (encodeEntry en).length)
            (rest.map encodeEntry) (replayStep pre.length idx0 (encodeEntry en)) := rfl
    have hlen2 : (pre ++ frame (encodeEntry en)).length
        = pre.length + 8 + (encodeEntry en).length := by
      simp [frame]
      omega
    have hmatch : IdxMatches
        (pre ++ (((en :: rest).map encodeEntry).map frame).flatten ++ post)
        (replayStep pre.length idx0 (encodeEntry en))
        (mupdate m0 en.key en.value) := by
      unfold replayStep
      rw [hdec]
      have hread : readAt
          (pre ++ (((en :: rest).map encodeEntry).map frame).flatten ++ post)
          (pre.length + 8) (encodeEntry en).length = some (encodeEntry en) := by
        rw [show pre ++ (((en :: rest).map encodeEntry).map frame).flatten ++ post
            = pre ++ frame (encodeEntry en)
                ++ (((rest.map encodeEntry).map frame).flatten ++ post) from by
          simp [List.append_assoc]]
        exact readAt_frame_body pre (encodeEntry en) _
      cases hv : en.value with
      | some v =>
        show IdxMatches _
          (idxInsert idx0 en.key ⟨pre.length + 8, (encodeEntry en).length⟩)
          (mupdate m0 en.key (some v))
        intro k
        by_cases hk : k = en.key
        · subst hk
          constructor
          · intro hl
            rw [idxLookup_idxInsert, if_pos rfl] at hl
            cases hl
          · intro li hl
            rw [idxLookup_idxInsert, if_pos rfl] at hl
            cases hl
            refine ⟨en.tstamp, v, by simp [mupdate], ?_, ?_⟩
            · rw [show (⟨en.tstamp, en.key, some v⟩ : DataFileEntry) = en from by
                rw [← hv]]
              exact hen
            · rw [show (⟨en.tstamp, en.key, some v⟩ : DataFileEntry) = en from by
                rw [← hv]]
              exact hread
        · constructor
          · intro hl
            rw [idxLookup_idxInsert, if_neg hk] at hl
            simpa [mupdate, hk] using (h k).1 hl
          · intro li hl
            rw [idxLookup_idxInsert, if_neg hk] at hl
            obtain ⟨t, w, hm, ho, hr⟩ := (h k).2 li hl
            exact ⟨t, w, by simpa [mupdate, hk] using hm, ho, hr⟩
      | none =>
        show IdxMatches _ (idxRemove idx0 en.key) (mupdate m0 en.key none)
        intro k
        by_cases hk : k = en.key
        · subst hk
          constructor
          · intro hl
            simp [mupdate]
          · intro li hl
            rw [idxLookup_idxRemove, if_pos rfl] at hl
            cases hl
        · constructor
          · intro hl
            rw [idxLookup_idxRemove, if_neg hk] at hl
            simpa [mupdate, hk] using (h k).1 hl
          · intro li hl
            rw [idxLookup_idxRemove, if_neg hk] at hl
            obtain ⟨t, w, hm, ho, hr⟩ := (h k).2 li hl
            exact ⟨t, w, by simpa [mupdate, hk] using hm, ho, hr⟩
    have hih := ih (pre ++ frame (encodeEntry en)) post
      (replayStep pre.length idx0 (encodeEntry en)) (mupdate m0 en.key en.value)
      (fun x hx => hok x (by simp [hx]))
      (by rw [← hfile]; exact hmatch)
    rw [hlen2, ← hfile] at hih
    rw [hstep]
    exact hih

/-- An empty index matches the empty map over any file. -/
theorem idxMatches_nil (file : List Nat) :
    IdxMatches file [] (fun _ => none) := by
  intro k
  constructor
  · intro _
    rfl
  · intro li hl
    cases hl

theorem replay_matches (T : Nat) (entries : List DataFileEntry)
    (hok : ∀ en ∈ entries, EntryOk en) :
    IdxMatches (logFile T (entries.map encodeEntry))
      (replayBodies 12 (entries.map encodeEntry) []) (mFold entries) := by
  have := replay_matches_gen entries (header T) [] [] (fun _ => none) hok
    (idxMatches_nil _)
  unfold logFile
  simpa [mFold] using this

theorem entryOk_goodBody {en : DataFileEntry} (h : EntryOk en) :
    GoodBody (encodeEntry en) := by
  refine ⟨h.2.2, ?_⟩
  rw [decodeEntry_encodeEntry en h.1 h.2.1]
  rfl

theorem tornTail_nil : TornTail [] := by
  simp [TornTail, leNat]

theorem logFile_take4 (T : Nat) (bodies : List (List Nat)) :
    (logFile T bodies).take 4 = magicBytes := by
  unfold logFile header
  rw [List.append_assoc]
  rw [show (4 : Nat) = magicBytes.length from rfl, List.take_left]

theorem logFile_length (T : Nat) (bodies : List (List Nat)) :
    (logFile T bodies).length = 12 + (bodies.map frame).flatten.length := by
  simp [logFile]

theorem scanRecords_logFile (T : Nat) (bodies : List (List Nat))
    (hgood : ∀ b ∈ bodies, GoodBody b) :
    scanRecords (logFile T bodies) 12 []
      = some (replayBodies 12 bodies [], (logFile T bodies).length) := by
  have := scan_frames bodies (header T) [] [] hgood tornTail_nil
  simpa [logFile] using this

theorem loadBytes_log (T Td : Nat) (hT : T < U64) (entries : List DataFileEntry)
    (hok : ∀ en ∈ entries, EntryOk en) :
    loadBytes (logFile T (entries.map encodeEntry)) Td =
      .ok ⟨logFile T (entries.map encodeEntry),
           replayBodies 12 (entries.map encodeEntry) [],
           (logFile T (entries.map encodeEntry)).length, T, 4⟩ := by
  have hgood : ∀ b ∈ entries.map encodeEntry, GoodBody b := by
    intro b hb
    obtain ⟨en, hen, rfl⟩ := List.mem_map.mp hb
    exact entryOk_goodBody (hok en hen)
  have hlen := logFile_length T (entries.map encodeEntry)
  unfold loadBytes
  rw [if_neg (by omega)]
  rw [if_neg (by omega)]
  rw [if_neg (by
    rw [logFile_take4]
    exact fun hc => hc rfl)]
  rw [show headerThreshold (logFile T (entries.map encodeEntry)) = T from
    headerThreshold_logFile hT _]
  rw [scanRecords_logFile T _ hgood]

theorem loadBytes_empty (Td : Nat) :
    loadBytes [] Td = .ok ⟨header Td, [], 12, Td, 4⟩ := by
  unfold loadBytes
  rw [if_pos (show ([] : List Nat).length = 0 from rfl)]
  have hs : scanRecords (header Td) 12 [] = some ([], 12) := by
    have := scan_frames [] (header Td) [] [] (by simp) tornTail_nil
    simpa [replayBodies] using this
  simp only [hs]

theorem inv_load (T : Nat) (hT : T < U64) (entries : List DataFileEntry)
    (hok : ∀ en ∈ entries, EntryOk en) :
    Inv ⟨logFile T (entries.map encodeEntry),
         replayBodies 12 (entries.map encodeEntry) [],
         (logFile T (entries.map encodeEntry)).length, T, 4⟩ entries := by
  refine ⟨rfl, hT, hok, rfl, ?_, fun k => rfl⟩
  exact replayBodies_nodup _ _ _ (by simp [idxKeys])

theorem inv_empty (Td : Nat) (h : Td < U64) :
    Inv ⟨header Td, [], 12, Td, 4⟩ [] := by
  refine ⟨?_, h, by simp, ?_, by simp [idxKeys], fun k => rfl⟩
  · simp [logFile]
  · rfl

theorem getPure_of_matches {file : List Nat} {idx : Index}
    {m : List Nat → Option (List Nat)} (h : IdxMatches file idx m) (k : List Nat) :
    getPure file idx k = .ok (m k) := by
  unfold getPure
  cases hl : idxLookup idx k with
  | none => rw [(h k).1 hl]
  | some li =>
    obtain ⟨t, v, hm, hok, hr⟩ := (h k).2 li hl
    simp [hr, decodeEntry_encodeEntry _ hok.1 hok.2.1, hm]

theorem get_fst (e : Engine) (k : List Nat) :
    (e.get k).1 = getPure e.fileData e.index k := by
  unfold Engine.get getPure
  cases hl : idxLookup e.index k with
  | none => rfl
  | some li => rfl

theorem inv_get {e : Engine} {entries : List DataFileEntry} (hi : Inv e entries)
    (k : List Nat) : (e.get k).1 = .ok (mFold entries k) := by
  have hm : IdxMatches e.fileData e.index (mFold entries) := by
    have hr := replay_matches e.compactThreshold entries hi.hok
    rw [← hi.hfile] at hr
    exact idxMatches_of_equiv hi.hequiv hr
  rw [get_fst]
  exact getPure_of_matches hm k

theorem inv_matches {e : Engine} {entries : List DataFileEntry} (hi : Inv e entries) :
    IdxMatches e.fileData e.index (mFold entries) := by
  have hr := replay_matches e.compactThreshold entries hi.hok
  rw [← hi.hfile] at hr
  exact idxMatches_of_equiv hi.hequiv hr

theorem idxLookup_cons (k0 : List Nat) (v0 : LogIndex) (rest : Index) (q : List Nat) :
    idxLookup ((k0, v0) :: rest) q = if q = k0 then some v0 else idxLookup rest q := rfl

theorem compactEntries_cons (file : List Nat) (k0 : List Nat) (li0 : LogIndex)
    (rest : Index) (body : List Nat) (size : Nat) :
    compactEntries file ((k0, li0) :: rest) body size =
      match readAt file li0.pos li0.len with
      | none => none
      | some data =>
        match compactEntries file rest (body ++ frame data) (size + 8 + data.length) with
        | none => none
        | some (fb, ir, fs) =>
          some (fb, (k0, ⟨12 + body.length + 8, data.length⟩) :: ir, fs) := rfl

theorem compactEntries_spec (file : List Nat) (m : List Nat → Option (List Nat)) :
    ∀ (lst : Index) (body : List Nat) (size : Nat),
      (∀ p ∈ lst, ∃ t v, m p.1 = some v ∧ EntryOk ⟨t, p.1, some v⟩ ∧
        readAt file p.2.pos p.2.len = some (encodeEntry ⟨t, p.1, some v⟩)) →
      (idxKeys lst).Nodup →
      ∃ (ents : List DataFileEntry) (newIdx : Index),
        compactEntries file lst body size =
          some (body ++ ((ents.map encodeEntry).map frame).flatten, newIdx,
                size + ((ents.map encodeEntry).map frame).flatten.length) ∧
        (∀ en ∈ ents, EntryOk en) ∧
        idxKeys newIdx = idxKeys lst ∧
        (∀ (k : List Nat) (idx0 : Index),
          idxLookup (replayBodies (12 + body.length) (ents.map encodeEntry) idx0) k
            = if k ∈ idxKeys lst then idxLookup newIdx k else idxLookup idx0 k) ∧
        (∀ (k : List Nat) (m0 : List Nat → Option (List Nat)),
          mFoldFrom m0 ents k = if k ∈ idxKeys lst then m k else m0 k) ∧
        List.Forall₂ (fun (en : DataFileEntry) (p : List Nat × LogIndex) =>
          en.key = p.1 ∧ (encodeEntry en).length = p.2.len ∧ en.value.isSome)
          ents newIdx := by
  intro lst
  induction lst with
  | nil =>
    intro body size hgood hnd
    refine ⟨[], [], by simp [compactEntries], by simp, rfl, ?_, ?_, List.Forall₂.nil⟩
    · intro k idx0
      simp [replayBodies, idxKeys]
    · intro k m0
      simp [mFoldFrom, idxKeys]
  | cons p rest ih =>
    intro body size hgood hnd
    obtain ⟨k0, li0⟩ := p
    obtain ⟨t0, v0, hm0, hok0, hread0⟩ := hgood (k0, li0) (by simp)
    simp only at hm0 hok0 hread0
    have hnd2 : (idxKeys rest).Nodup := by
      have := hnd
      simp only [idxKeys, List.map_cons, List.nodup_cons] at this
      exact this.2
    have hk0nm : k0 ∉ idxKeys rest := by
      have := hnd
      simp only [idxKeys, List.map_cons, List.nodup_cons] at this
      exact this.1
    obtain ⟨ents2, newIdx2, heq2, hok2, hkeys2, hreplay2, hmf2, hfa2⟩ :=
      ih (body ++ frame (encodeEntry ⟨t0, k0, some v0⟩))
        (size + 8 + (encodeEntry ⟨t0, k0, some v0⟩).length)
        (fun q hq => hgood q (by simp [hq])) hnd2
    set en0 : DataFileEntry := ⟨t0, k0, some v0⟩ with hen0
    set b0 : List Nat := encodeEntry en0 with hb0
    refine ⟨en0 :: ents2, (k0, ⟨12 + body.length + 8, b0.length⟩) :: newIdx2,
      ?_, ?_, ?_, ?_, ?_, ?_⟩
    · rw [compactEntries_cons]
      simp only [hread0, heq2]
      have h1 : body ++ frame b0 ++ (List.map frame (List.map encodeEntry ents2)).flatten
          = body ++ (List.map frame (List.map encodeEntry (en0 :: ents2))).flatten := by
        simp only [List.map_cons, List.flatten_cons, ← hb0, List.append_assoc]
      have h2 : size + 8 + b0.length
            + (List.map frame (List.map encodeEntry ents2)).flatten.length
          = size + (List.map frame (List.map encodeEntry (en0 :: ents2))).flatten.length := by
        simp only [List.map_cons, List.flatten_cons, ← hb0, List.length_append,
          frame_length]
        omega
      rw [h1, h2]
    · intro en hen
      rcases List.mem_cons.mp hen with h1 | h1
      · rw [h1]
        exact hok0
      · exact hok2 en h1
    · simp only [idxKeys, List.map_cons]
      rw [show List.map Prod.fst newIdx2 = idxKeys newIdx2 from rfl,
        show List.map Prod.fst rest = idxKeys rest from rfl, hkeys2]
    · intro k idx0
      have hstep : replayBodies (12 + body.length) ((en0 :: ents2).map encodeEntry) idx0
          = replayBodies (12 + body.length + 8 + b0.length) (ents2.map encodeEntry)
              (replayStep (12 + body.length) idx0 b0) := rfl
      rw [hstep]
      have hpos : 12 + (body ++ frame b0).length = 12 + body.length + 8 + b0.length := by
        simp [frame]
        omega
      have := hreplay2 k (replayStep (12 + body.length) idx0 b0)
      rw [hpos] at this
      rw [this]
      have hdec0 : decodeEntry b0 =
          some ⟨decTstamp (encTstamp t0), k0, some v0⟩ :=
        decodeEntry_encodeEntry en0 hok0.1 hok0.2.1
      have hrs : replayStep (12 + body.length) idx0 b0
          = idxInsert idx0 k0 ⟨12 + body.length + 8, b0.length⟩ := by
        unfold replayStep
        rw [hdec0]
        rfl
      by_cases hmem : k ∈ idxKeys rest
      · have hkne : k ≠ k0 := fun he => hk0nm (he ▸ hmem)
        rw [if_pos hmem]
        rw [if_pos (by
          simp only [idxKeys, List.map_cons, List.mem_cons]
          exact Or.inr hmem)]
        rw [idxLookup_cons, if_neg hkne]
      · rw [if_neg hmem, hrs]
        by_cases hke : k = k0
        · subst hke
          rw [idxLookup_idxInsert, if_pos rfl]
          rw [if_pos (by simp [idxKeys])]
          rw [idxLookup_cons, if_pos rfl]
        · rw [idxLookup_idxInsert, if_neg hke]
          rw [if_neg (by
            simp only [idxKeys, List.map_cons, List.mem_cons]
            rintro (h1 | h1)
            · exact hke h1
            · exact hmem h1)]
    · intro k m0
      have hstep : mFoldFrom m0 (en0 :: ents2) k
          = mFoldFrom (mupdate m0 k0 (some v0)) ents2 k := rfl
      rw [hstep, hmf2]
      by_cases hmem : k ∈ idxKeys rest
      · rw [if_pos hmem]
        rw [if_pos (by
          simp only [idxKeys, List.map_cons, List.mem_cons]
          exact Or.inr hmem)]
      · rw [if_neg hmem]
        by_cases hke : k = k0
        · subst hke
          rw [if_pos (by simp [idxKeys])]
          rw [show mupdate m0 k (some v0) k = some v0 from by simp [mupdate]]
          exact hm0.symm
        · rw [if_neg (by
            simp only [idxKeys, List.map_cons, List.mem_cons]
            rintro (h1 | h1)
            · exact hke h1
            · exact hmem h1)]
          simp [mupdate, hke]
    · exact List.Forall₂.cons ⟨rfl, rfl, rfl⟩ hfa2

theorem logFile_append (T : Nat) (bodies : List (List Nat)) (b : List Nat) :
    logFile T bodies ++ frame b = logFile T (bodies ++ [b]) := by
  simp [logFile]

theorem compact_inv {e : Engine} {entries : List DataFileEntry} (hi : Inv e entries) :
    ∃ e2 ents2, e.compact = some e2 ∧ Inv e2 ents2 ∧
      (∀ k, mFold ents2 k = mFold entries k) := by
  have hm := inv_matches hi
  have hgood : ∀ p ∈ e.index, ∃ t v, mFold entries p.1 = some v ∧
      EntryOk ⟨t, p.1, some v⟩ ∧
      readAt e.fileData p.2.pos p.2.len = some (encodeEntry ⟨t, p.1, some v⟩) := by
    intro p hp
    exact (hm p.1).2 p.2 (idxLookup_of_mem hi.hnodup hp)
  obtain ⟨ents2, newIdx, heq, hok2, hkeys, hreplay, hmf, hfa⟩ :=
    compactEntries_spec e.fileData (mFold entries) e.index [] 12 hgood hi.hnodup
  have hmpt : ∀ k, mFold ents2 k = mFold entries k := by
    intro k
    have h1 := hmf k (fun _ => none)
    by_cases hmem : k ∈ idxKeys e.index
    · rw [mFold, h1, if_pos hmem]
    · rw [mFold, h1, if_neg hmem]
      exact ((hm k).1 ((idxLookup_eq_none_iff _ _).mpr hmem)).symm
  have hequiv2 : IdxEquiv newIdx
      (replayBodies 12 (ents2.map encodeEntry) []) := by
    intro q
    have h1 := hreplay q []
    simp only [List.length_nil, Nat.add_zero] at h1
    by_cases hmem : q ∈ idxKeys e.index
    · rw [h1, if_pos hmem]
    · rw [h1, if_neg hmem]
      rw [show idxLookup ([] : Index) q = none from rfl]
      rw [idxLookup_eq_none_iff, hkeys]
      exact hmem
  have hnodup2 : (idxKeys newIdx).Nodup := by
    rw [hkeys]
    exact hi.hnodup
  unfold Engine.compact
  rw [heq]
  simp only
  by_cases hcond :
      (12 + ((ents2.map encodeEntry).map frame).flatten.length) * 4 % U64
        > e.fileSize * 3 % U64
  · rw [if_pos hcond]
    refine ⟨_, ents2, rfl, ?_, hmpt⟩
    refine ⟨?_, ?_, hok2, ?_, hnodup2, hequiv2⟩
    · show header (min (e.compactThreshold * 2) (U64 - 1))
          ++ ([] ++ ((ents2.map encodeEntry).map frame).flatten)
        = logFile (min (e.compactThreshold * 2) (U64 - 1)) (ents2.map encodeEntry)
      simp [logFile]
    · show min (e.compactThreshold * 2) (U64 - 1) < U64
      have h1 : min (e.compactThreshold * 2) (U64 - 1) ≤ U64 - 1 := min_le_right _ _
      have h2 : 0 < U64 := by norm_num [U64]
      omega
    · show 12 + ((ents2.map encodeEntry).map frame).flatten.length
        = (header (min (e.compactThreshold * 2) (U64 - 1))
            ++ ([] ++ ((ents2.map encodeEntry).map frame).flatten)).length
      simp
  · rw [if_neg hcond]
    refine ⟨_, ents2, rfl, ?_, hmpt⟩
    refine ⟨?_, hi.hthr, hok2, ?_, hnodup2, hequiv2⟩
    · show header e.compactThreshold
          ++ ([] ++ ((ents2.map encodeEntry).map frame).flatten)
        = logFile e.compactThreshold (ents2.map encodeEntry)
      simp [logFile]
    · show 12 + ((ents2.map encodeEntry).map frame).flatten.length
        = (header e.compactThreshold
            ++ ([] ++ ((ents2.map encodeEntry).map frame).flatten)).length
      simp

theorem set_eq (e : Engine) (t : Int) (k v : List Nat) :
    e.set t k v =
      if e.fileSize + 8 + (encodeEntry ⟨t, k, some v⟩).length ≥ e.compactThreshold
      then Engine.compact
        { fileData := e.fileData ++ frame (encodeEntry ⟨t, k, some v⟩)
          index := idxInsert e.index k
            ⟨e.fileData.length + 8, (encodeEntry ⟨t, k, some v⟩).length⟩
          fileSize := e.fileSize + 8 + (encodeEntry ⟨t, k, some v⟩).length
          compactThreshold := e.compactThreshold
          readerPool := e.readerPool }
      else some
        { fileData := e.fileData ++ frame (encodeEntry ⟨t, k, some v⟩)
          index := idxInsert e.index k
            ⟨e.fileData.length + 8, (encodeEntry ⟨t, k, some v⟩).length⟩
          fileSize := e.fileSize + 8 + (encodeEntry ⟨t, k, some v⟩).length
          compactThreshold := e.compactThreshold
          readerPool := e.readerPool } := rfl

theorem inv_append_entry {e : Engine} {entries : List DataFileEntry}
    (hi : Inv e entries) (en : DataFileEntry) (hok : EntryOk en) :
    Inv { fileData := e.fileData ++ frame (encodeEntry en)
          index := applyEntry e.index en
            ⟨e.fileData.length + 8, (encodeEntry en).length⟩
          fileSize := e.fileSize + 8 + (encodeEntry en).length
          compactThreshold := e.compactThreshold
          readerPool := e.readerPool } (entries ++ [en]) := by
  refine ⟨?_, hi.hthr, ?_, ?_, ?_, ?_⟩
  · show e.fileData ++ frame (encodeEntry en)
      = logFile e.compactThreshold ((entries ++ [en]).map encodeEntry)
    rw [hi.hfile, logFile_append]
    simp
  · intro x hx
    rcases List.mem_append.mp hx with h1 | h1
    · exact hi.hok x h1
    · rw [List.mem_singleton.mp h1]
      exact hok
  · show e.fileSize + 8 + (encodeEntry en).length
      = (e.fileData ++ frame (encodeEntry en)).length
    rw [hi.hsize]
    simp only [List.length_append, frame_length]
    omega
  · exact applyEntry_nodup hi.hnodup en _
  · intro q
    have happ := replayBodies_append (entries.map encodeEntry) (encodeEntry en) 12 []
    have hfl : 12 + ((entries.map encodeEntry).map frame).flatten.length
        = e.fileData.length := by
      rw [hi.hfile, logFile_length]
    have hmap : (entries ++ [en]).map encodeEntry
        = entries.map encodeEntry ++ [encodeEntry en] := by simp
    show idxLookup (applyEntry e.index en ⟨e.fileData.length + 8, (encodeEntry en).length⟩) q
      = idxLookup (replayBodies 12 ((entries ++ [en]).map encodeEntry) []) q
    rw [hmap, happ, hfl]
    have hdec : decodeEntry (encodeEntry en)
        = some ⟨decTstamp (encTstamp en.tstamp), en.key, en.value⟩ :=
      decodeEntry_encodeEntry en hok.1 hok.2.1
    have hrs : replayStep e.fileData.length
          (replayBodies 12 (entries.map encodeEntry) []) (encodeEntry en)
        = applyEntry (replayBodies 12 (entries.map encodeEntry) [])
            ⟨decTstamp (encTstamp en.tstamp), en.key, en.value⟩
            ⟨e.fileData.length + 8, (encodeEntry en).length⟩ := by
      unfold replayStep
      rw [hdec]
    rw [hrs]
    cases hv : en.value with
    | some v =>
      have ha1 : applyEntry e.index en ⟨e.fileData.length + 8, (encodeEntry en).length⟩
          = idxInsert e.index en.key ⟨e.fileData.length + 8, (encodeEntry en).length⟩ := by
        unfold applyEntry
        rw [hv]
      have ha2 : applyEntry (replayBodies 12 (entries.map encodeEntry) [])
            ⟨decTstamp (encTstamp en.tstamp), en.key, some v⟩
            ⟨e.fileData.length + 8, (encodeEntry en).length⟩
          = idxInsert (replayBodies 12 (entries.map encodeEntry) []) en.key
            ⟨e.fileData.length + 8, (encodeEntry en).length⟩ := rfl
      rw [ha1, ha2, idxLookup_idxInsert, idxLookup_idxInsert]
      by_cases hq : q = en.key
      · rw [if_pos hq, if_pos hq]
      · rw [if_neg hq, if_neg hq]
        exact hi.hequiv q
    | none =>
      have ha1 : applyEntry e.index en ⟨e.fileData.length + 8, (encodeEntry en).length⟩
          = idxRemove e.index en.key := by
        unfold applyEntry
        rw [hv]
      have ha2 : applyEntry (replayBodies 12 (entries.map encodeEntry) [])
            ⟨decTstamp (encTstamp en.tstamp), en.key, none⟩
            ⟨e.fileData.length + 8, (encodeEntry en).length⟩
          = idxRemove (replayBodies 12 (entries.map encodeEntry) []) en.key := rfl
      rw [ha1, ha2, idxLookup_idxRemove, idxLookup_idxRemove]
      by_cases hq : q = en.key
      · rw [if_pos hq, if_pos hq]
      · rw [if_neg hq, if_neg hq]
        exact hi.hequiv q

theorem mFold_append_entry (entries : List DataFileEntry) (en : DataFileEntry) :
    ∀ q, mFold (entries ++ [en]) q = mupdate (mFold entries) en.key en.value q := by
  intro q
  rw [mFold, mFoldFrom_append]
  rfl

theorem set_inv {e : Engine} {entries : List DataFileEntry} (hi : Inv e entries)
    (t : Int) (k v : List Nat) (hok : EntryOk ⟨t, k, some v⟩) :
    ∃ e2 ents2, e.set t k v = some e2 ∧ Inv e2 ents2 ∧
      ∀ q, mFold ents2 q = mupdate (mFold entries) k (some v) q := by
  have hi1 := inv_append_entry hi ⟨t, k, some v⟩ hok
  have hins : applyEntry e.index (⟨t, k, some v⟩ : DataFileEntry)
        ⟨e.fileData.length + 8, (encodeEntry ⟨t, k, some v⟩).length⟩
      = idxInsert e.index k
        ⟨e.fileData.length + 8, (encodeEntry ⟨t, k, some v⟩).length⟩ := rfl
  rw [hins] at hi1
  have hm1 := mFold_append_entry entries ⟨t, k, some v⟩
  rw [set_eq]
  by_cases hc : e.fileSize + 8 + (encodeEntry ⟨t, k, some v⟩).length
      ≥ e.compactThreshold
  · rw [if_pos hc]
    obtain ⟨e2, ents2, hc2, hi2, hm2⟩ := compact_inv hi1
    exact ⟨e2, ents2, hc2, hi2, fun q => (hm2 q).trans (hm1 q)⟩
  · rw [if_neg hc]
    exact ⟨_, entries ++ [⟨t, k, some v⟩], rfl, hi1, hm1⟩

theorem del_eq (e : Engine) (t : Int) (k : List Nat) :
    e.del t k =
      { fileData := e.fileData ++ frame (encodeEntry ⟨t, k, none⟩)
        index := idxRemove e.index k
        fileSize := e.fileSize + 8 + (encodeEntry ⟨t, k, none⟩).length
        compactThreshold := e.compactThreshold
        readerPool := e.readerPool } := rfl

theorem del_inv {e : Engine} {entries : List DataFileEntry} (hi : Inv e entries)
    (t : Int) (k : List Nat) (hok : EntryOk ⟨t, k, none⟩) :
    Inv (e.del t k) (entries ++ [⟨t, k, none⟩]) ∧
      ∀ q, mFold (entries ++ [⟨t, k, none⟩]) q = mupdate (mFold entries) k none q := by
  have hi1 := inv_append_entry hi ⟨t, k, none⟩ hok
  have hrem : applyEntry e.index (⟨t, k, none⟩ : DataFileEntry)
        ⟨e.fileData.length + 8, (encodeEntry ⟨t, k, none⟩).length⟩
      = idxRemove e.index k := rfl
  rw [hrem] at hi1
  rw [del_eq]
  exact ⟨hi1, mFold_append_entry entries ⟨t, k, none⟩⟩

/-! ## Reachable states and operation sequences -/

/-- Engine states reachable from a fresh load of an empty file by `set`,
`del` and `compact`.  The `EntryOk` side conditions record that Rust keys
and values are slices whose lengths fit in `usize`. -/
inductive Reachable : Engine → Prop where
  | load : ∀ e, Engine.load [] = .ok e → Reachable e
  | set : ∀ e e2 t k v, Reachable e → EntryOk ⟨t, k, some v⟩ →
      e.set t k v = some e2 → Reachable e2
  | del : ∀ e t k, Reachable e → EntryOk ⟨t, k, none⟩ → Reachable (e.del t k)
  | compact : ∀ e e2, Reachable e → e.compact = some e2 → Reachable e2

theorem default_threshold_lt : defaultCompactThreshold < U64 := by
  norm_num [defaultCompactThreshold, U64]

theorem reach_inv : ∀ e, Reachable e → ∃ entries, Inv e entries := by
  intro e h
  induction h with
  | load e he =>
    rw [show Engine.load [] = loadBytes [] defaultCompactThreshold from rfl,
      loadBytes_empty] at he
    cases he
    exact ⟨[], inv_empty defaultCompactThreshold default_threshold_lt⟩
  | set e e2 t k v _ hok hstep ih =>
    obtain ⟨entries, hi⟩ := ih
    obtain ⟨e3, ents3, hs, hi3, -⟩ := set_inv hi t k v hok
    rw [hstep] at hs
    cases hs
    exact ⟨ents3, hi3⟩
  | del e t k _ hok ih =>
    obtain ⟨entries, hi⟩ := ih
    exact ⟨entries ++ [⟨t, k, none⟩], (del_inv hi t k hok).1⟩
  | compact e e2 _ hstep ih =>
    obtain ⟨entries, hi⟩ := ih
    obtain ⟨e3, ents3, hs, hi3, -⟩ := compact_inv hi
    rw [hstep] at hs
    cases hs
    exact ⟨ents3, hi3⟩

/-- A client operation: `set` or `del` with its timestamp. -/
inductive Op where
  | setOp (t : Int) (k v : List Nat)
  | delOp (t : Int) (k : List Nat)
deriving DecidableEq, Repr

/-- Key/value length side conditions for an operation (automatic in Rust,
where slice lengths are `usize`). -/
def OpOk : Op → Prop
  | .setOp t k v => EntryOk ⟨t, k, some v⟩
  | .delOp t k => EntryOk ⟨t, k, none⟩

instance : DecidablePred OpOk := fun op => by
  cases op
  · unfold OpOk
    infer_instance
  · unfold OpOk
    infer_instance

/-- Run one operation on the engine. -/
def applyOp (e : Engine) : Op → Option Engine
  | .setOp t k v => e.set t k v
  | .delOp t k => some (e.del t k)

/-- Run a sequence of operations on the engine. -/
def runOps (e : Engine) : List Op → Option Engine
  | [] => some e
  | op :: rest =>
    match applyOp e op with
    | none => none
    | some e2 => runOps e2 rest

/-- The effect of one operation on the abstract map: `set` binds the key
to the value, `del` removes it. -/
def specStep (m : List Nat → Option (List Nat)) : Op → (List Nat → Option (List Nat))
  | .setOp _ k v => mupdate m k (some v)
  | .delOp _ k => mupdate m k none

/-- The abstract map after a sequence of operations, starting from `m`. -/
def specFrom (m : List Nat → Option (List Nat)) : List Op → (List Nat → Option (List Nat))
  | [] => m
  | op :: rest => specFrom (specStep m op) rest

/-- The abstract map after a sequence of operations on an empty store:
for each key, the value of the most recent `set` not followed by a later
`del`, and nothing otherwise. -/
def specModel (ops : List Op) : List Nat → Option (List Nat) :=
  specFrom (fun _ => none) ops

theorem specStep_congr {m1 m2 : List Nat → Option (List Nat)}
    (h : ∀ q, m1 q = m2 q) (op : Op) (q : List Nat) :
    specStep m1 op q = specStep m2 op q := by
  cases op
  · simp [specStep, mupdate]
    split
    · rfl
    · exact h q
  · simp [specStep, mupdate]
    split
    · rfl
    · exact h q

theorem specFrom_congr :
    ∀ (ops : List Op) {m1 m2 : List Nat → Option (List Nat)},
      (∀ q, m1 q = m2 q) → ∀ q, specFrom m1 ops q = specFrom m2 ops q := by
  intro ops
  induction ops with
  | nil =>
    intro m1 m2 h q
    exact h q
  | cons op rest ih =>
    intro m1 m2 h q
    exact ih (fun r => specStep_congr h op r) q

theorem runOps_inv :
    ∀ (ops : List Op) (e : Engine) (entries : List DataFileEntry),
      Inv e entries → (∀ op ∈ ops, OpOk op) →
      ∃ e2 ents2, runOps e ops = some e2 ∧ Inv e2 ents2 ∧
        ∀ q, mFold ents2 q = specFrom (mFold entries) ops q := by
  intro ops
  induction ops with
  | nil =>
    intro e entries hi _
    exact ⟨e, entries, rfl, hi, fun q => rfl⟩
  | cons op rest ih =>
    intro e entries hi hok
    cases op with
    | setOp t k v =>
      obtain ⟨e1, ents1, hs, hi1, hm1⟩ :=
        set_inv hi t k v (hok (.setOp t k v) (by simp))
      obtain ⟨e2, ents2, hr, hi2, hm2⟩ :=
        ih e1 ents1 hi1 (fun x hx => hok x (by simp [hx]))
      refine ⟨e2, ents2, ?_, hi2, ?_⟩
      · rw [show runOps e (Op.setOp t k v :: rest)
            = match applyOp e (Op.setOp t k v) with
              | none => none
              | some e3 => runOps e3 rest from rfl]
        rw [show applyOp e (Op.setOp t k v) = e.set t k v from rfl, hs]
        exact hr
      · intro q
        rw [hm2 q]
        exact specFrom_congr rest hm1 q
    | delOp t k =>
      have hd := del_inv hi t k (hok (.delOp t k) (by simp))
      obtain ⟨e2, ents2, hr, hi2, hm2⟩ :=
        ih (e.del t k) (entries ++ [⟨t, k, none⟩]) hd.1
          (fun x hx => hok x (by simp [hx]))
      refine ⟨e2, ents2, ?_, hi2, ?_⟩
      · rw [show runOps e (Op.delOp t k :: rest)
            = match applyOp e (Op.delOp t k) with
              | none => none
              | some e3 => runOps e3 rest from rfl]
        rw [show applyOp e (Op.delOp t k) = some (e.del t k) from rfl]
        exact hr
      · intro q
        rw [hm2 q]
        exact specFrom_congr rest hd.2 q

/-! ## A failure-injection model of `compact` (for the error-atomicity claim)

`Engine::compact` performs a sequence of I/O operations, any of which the
OS may fail; the `?` operator then returns the error with the function's
side effects so far in place.  `compactF` mirrors engine.rs lines 260-335
step by step: the failure point (if any) is injected by name, and the
outcome records the success flag together with every observable the claim
speaks about — the live file's bytes, the tmp file, and the in-memory
index, tracked size and threshold. -/

/-- The fallible I/O steps of `compact`, in program order: creating the
tmp file, writing its header, the per-entry copy (read + write of entry
`j`), the tmp flush, the rename over the live path, reopening the live
read-write handle, and persisting a doubled threshold into the header. -/
inductive CStep where
  | openTmp
  | writeHeaderTmp
  | copyEntry (j : Nat)
  | flushTmp
  | renameStep
  | reopen
  | persist
deriving DecidableEq, Repr

/-- The outcome of a `compact` call under failure injection. -/
structure CompactOutcome where
  ok : Bool
  live : List Nat
  tmp : Option (List Nat)
  index : Index
  fileSize : Nat
  threshold : Nat
deriving DecidableEq, Repr

/-- The copy loop of `compact` with an injected failure before entry `j`;
on error it returns the tmp body written so far. -/
def copyLoop (file : List Nat) (failAt : Option Nat) :
    List (List Nat × LogIndex) → Nat → List Nat → Index → Nat →
      Except (List Nat) (List Nat × Index × Nat)
  | [], _, body, idx, size => .ok (body, idx, size)
  | (k, li) :: rest, j, body, idx, size =>
    if failAt = some j then .error body
    else
      match readAt file li.pos li.len with
      | none => .error body
      | some data =>
        copyLoop file failAt rest (j + 1) (body ++ frame data)
          (idxInsert idx k ⟨12 + body.length + 8, data.length⟩) (size + 8 + data.length)

def failIdx : Option CStep → Option Nat
  | some (.copyEntry j) => some j
  | _ => none

/-- `Engine::compact` under failure injection.  `tmp0` is the tmp file's
prior contents (it survives an `openTmp` failure).  The step order, the
state each step mutates, and what each early `?` return leaves behind are
those of engine.rs lines 260-335: in particular the reader pool is cleared
and the rename performed before the index swap, the live handle reopen and
the threshold persist. -/
def compactF (e : Engine) (tmp0 : Option (List Nat)) (fail : Option CStep) :
    CompactOutcome :=
  let T := e.compactThreshold
  if fail = some .openTmp then
    ⟨false, e.fileData, tmp0, e.index, e.fileSize, T⟩
  else if fail = some .writeHeaderTmp then
    ⟨false, e.fileData, some [], e.index, e.fileSize, T⟩
  else
    match copyLoop e.fileData (failIdx fail) e.index 0 [] [] 12 with
    | .error bodyPart =>
      ⟨false, e.fileData, some (header T ++ bodyPart), e.index, e.fileSize, T⟩
    | .ok (body, newIdx, newSize) =>
      if fail = some .flushTmp then
        ⟨false, e.fileData, some (header T ++ body), e.index, e.fileSize, T⟩
      else if fail = some .renameStep then
        ⟨false, e.fileData, some (header T ++ body), e.index, e.fileSize, T⟩
      else if fail = some .reopen then
        ⟨false, header T ++ body, none, e.index, e.fileSize, T⟩
      else if newSize * 4 % U64 > e.fileSize * 3 % U64 then
        let T2 := min (T * 2) (U64 - 1)
        if fail = some .persist then
          ⟨false, header T ++ body, none, newIdx, newSize, T2⟩
        else
          ⟨true, header T2 ++ body, none, newIdx, newSize, T2⟩
      else
        ⟨true, header T ++ body, none, newIdx, newSize, T⟩

/-! ## Further header and scan lemmas -/

theorem headerThreshold_header (t : Nat) (rest : List Nat) :
    headerThreshold (header t ++ rest) = t % U64 := by
  unfold headerThreshold header
  rw [List.append_assoc]
  rw [show (4 : Nat) = magicBytes.length from rfl, List.drop_left]
  rw [show (8 : Nat) = (u64LE t).length from rfl, List.take_left]
  exact leNat_u64LE t

theorem headerThreshold_append {f : List Nat} (g : List Nat) (h : 12 ≤ f.length) :
    headerThreshold (f ++ g) = headerThreshold f := by
  unfold headerThreshold
  rw [List.drop_append_of_le_length (by omega)]
  rw [List.take_append_of_le_length (by simp only [List.length_drop]; omega)]

theorem take4_append {f : List Nat} (g : List Nat) (h : 4 ≤ f.length) :
    (f ++ g).take 4 = f.take 4 := by
  rw [List.take_append_of_le_length h]

/-- A scan beginning at a run of well-formed frames steps over all of
them, replaying their entries. -/
theorem scan_skip :
    ∀ (bodies : List (List Nat)) (pre suffix : List Nat) (idx : Index),
      (∀ b ∈ bodies, GoodBody b) →
      scanRecords (pre ++ (bodies.map frame).flatten ++ suffix) pre.length idx
        = scanRecords (pre ++ (bodies.map frame).flatten ++ suffix)
            (pre.length + (bodies.map frame).flatten.length)
            (replayBodies pre.length bodies idx) := by
  intro bodies
  induction bodies with
  | nil =>
    intro pre suffix idx hgood
    simp [replayBodies]
  | cons b rest ih =>
    intro pre suffix idx hgood
    obtain ⟨hblen, hbdec⟩ := hgood b (by simp)
    obtain ⟨en, hen⟩ := Option.isSome_iff_exists.mp hbdec
    have hfile : pre ++ ((b :: rest).map frame).flatten ++ suffix
        = pre ++ u64LE b.length ++ (b ++ ((rest.map frame).flatten ++ suffix)) := by
      simp [frame, List.append_assoc]
    rw [hfile]
    conv_lhs => rw [scanRecords_step]
    have hr : readAt (pre ++ u64LE b.length ++ (b ++ ((rest.map frame).flatten ++ suffix)))
        pre.length 8 = some (u64LE b.length) := by
      have := readAt_exact pre (u64LE b.length) (b ++ ((rest.map frame).flatten ++ suffix))
      simpa using this
    have hd : readAt (pre ++ u64LE b.length ++ (b ++ ((rest.map frame).flatten ++ suffix)))
        (pre.length + 8) b.length = some b := by
      have := readAt_exact (pre ++ u64LE b.length) b ((rest.map frame).flatten ++ suffix)
      rw [List.append_assoc (pre ++ u64LE b.length)] at this
      simpa [List.length_append] using this
    simp only [hr, leNat_u64LE_of_lt hblen, hd, hen]
    have hih := ih (pre ++ frame b) suffix
      (applyEntry idx en ⟨pre.length + 8, b.length⟩)
      (fun x hx => hgood x (by simp [hx]))
    have hlen : (pre ++ frame b).length = pre.length + 8 + b.length := by
      simp [frame]
      omega
    have hfile2 : (pre ++ frame b) ++ (rest.map frame).flatten ++ suffix
        = pre ++ u64LE b.length ++ (b ++ ((rest.map frame).flatten ++ suffix)) := by
      simp [frame, List.append_assoc]
    rw [hfile2, hlen] at hih
    rw [hih]
    have hreplay : replayBodies pre.length (b :: rest) idx
        = replayBodies (pre.length + 8 + b.length) rest
            (applyEntry idx en ⟨pre.length + 8, b.length⟩) := by
      rw [show replayBodies pre.length (b :: rest) idx
            = replayBodies (pre.length + 8 + b.length) rest (replayStep pre.length idx b)
          from rfl]
      unfold replayStep
      rw [hen]
    rw [hreplay]
    congr 1
    simp only [List.map_cons, List.flatten_cons, List.length_append, frame_length]
    omega

theorem loadBytes_scan_some {file : List Nat} (T : Nat) {idx : Index} {endPos : Nat}
    (h12 : 12 ≤ file.length) (hmagic : file.take 4 = magicBytes)
    (hscan : scanRecords file 12 [] = some (idx, endPos)) :
    loadBytes file T = .ok ⟨file, idx, endPos, headerThreshold file, 4⟩ := by
  unfold loadBytes
  rw [if_neg (by omega), if_neg (by omega)]
  rw [if_neg (show ¬ file.take 4 ≠ magicBytes from fun hc => hc hmagic)]
  simp only [hscan]

theorem loadBytes_scan_none {file : List Nat} (T : Nat)
    (h12 : 12 ≤ file.length) (hmagic : file.take 4 = magicBytes)
    (hscan : scanRecords file 12 [] = none) :
    loadBytes file T = .error "invalid data" := by
  unfold loadBytes
  rw [if_neg (by omega), if_neg (by omega)]
  rw [if_neg (show ¬ file.take 4 ≠ magicBytes from fun hc => hc hmagic)]
  simp only [hscan]

theorem loadBytes_torn (T2 : Nat) (bodies : List (List Nat)) (tail : List Nat) (T : Nat)
    (hT2 : T2 < U64) (hgood : ∀ b ∈ bodies, GoodBody b) (htorn : TornTail tail) :
    loadBytes (logFile T2 bodies ++ tail) T =
      .ok ⟨logFile T2 bodies ++ tail, replayBodies 12 bodies [],
           (logFile T2 bodies ++ tail).length, T2, 4⟩ := by
  have hlen := logFile_length T2 bodies
  have hscan : scanRecords (logFile T2 bodies ++ tail) 12 []
      = some (replayBodies 12 bodies [], (logFile T2 bodies ++ tail).length) := by
    have := scan_frames bodies (header T2) tail [] hgood htorn
    rw [show header T2 ++ (bodies.map frame).flatten ++ tail
          = logFile T2 bodies ++ tail from by simp [logFile, List.append_assoc]] at this
    simpa using this
  have hth : headerThreshold (logFile T2 bodies ++ tail) = T2 := by
    rw [headerThreshold_append tail (by omega), headerThreshold_logFile hT2]
  have hm : (logFile T2 bodies ++ tail).take 4 = magicBytes := by
    rw [take4_append tail (by omega), logFile_take4]
  rw [loadBytes_scan_some T (by simp only [List.length_append]; omega) hm hscan, hth]

theorem scanRecords_decodefail (T2 : Nat) (bodies : List (List Nat)) (bad rest : List Nat)
    (hgood : ∀ b ∈ bodies, GoodBody b) (hblen : bad.length < U64)
    (hbad : decodeEntry bad = none) :
    scanRecords (logFile T2 bodies ++ (frame bad ++ rest)) 12 [] = none := by
  have hfile : logFile T2 bodies ++ (frame bad ++ rest)
      = header T2 ++ (bodies.map frame).flatten ++ (frame bad ++ rest) := by
    simp [logFile, List.append_assoc]
  rw [hfile]
  rw [show (12 : Nat) = (header T2).length from rfl]
  rw [scan_skip bodies (header T2) (frame bad ++ rest) [] hgood]
  rw [scanRecords_step]
  have hfile2 : header T2 ++ (bodies.map frame).flatten ++ (frame bad ++ rest)
      = (header T2 ++ (bodies.map frame).flatten) ++ u64LE bad.length ++ (bad ++ rest) := by
    simp [frame, List.append_assoc]
  have hpos : (header T2).length + (bodies.map frame).flatten.length
      = (header T2 ++ (bodies.map frame).flatten).length := by
    simp
  have hr : readAt (header T2 ++ (bodies.map frame).flatten ++ (frame bad ++ rest))
      ((header T2).length + (bodies.map frame).flatten.length) 8 = some (u64LE bad.length) := by
    rw [hfile2, hpos]
    have := readAt_exact (header T2 ++ (bodies.map frame).flatten) (u64LE bad.length) (bad ++ rest)
    simpa using this
  have hd : readAt (header T2 ++ (bodies.map frame).flatten ++ (frame bad ++ rest))
      ((header T2).length + (bodies.map frame).flatten.length + 8) bad.length = some bad := by
    rw [hfile2]
    have := readAt_exact ((header T2 ++ (bodies.map frame).flatten) ++ u64LE bad.length) bad rest
    rw [List.append_assoc ((header T2 ++ (bodies.map frame).flatten) ++ u64LE bad.length)] at this
    simp only [List.length_append, u64LE_length] at this
    exact this
  simp only [hr, leNat_u64LE_of_lt hblen, hd, hbad]

theorem loadBytes_threshold_irrelevant {file : List Nat} (T1 T2 : Nat)
    (h0 : 0 < file.length) : loadBytes file T1 = loadBytes file T2 := by
  unfold loadBytes
  rw [if_neg (show ¬ file.length = 0 from by omega)]
  rw [if_neg (show ¬ file.length = 0 from by omega)]

theorem loadBytes_ok_threshold {file : List Nat} {T : Nat} {e : Engine}
    (h0 : 0 < file.length) (hc : loadBytes file T = .ok e) :
    e.compactThreshold = headerThreshold file := by
  unfold loadBytes at hc
  rw [if_neg (by omega)] at hc
  by_cases h12 : file.length < 12
  · rw [if_pos h12] at hc
    cases hc
  · rw [if_neg h12] at hc
    by_cases hmagic : file.take 4 ≠ magicBytes
    · rw [if_pos hmagic] at hc
      cases hc
    · rw [if_neg hmagic] at hc
      cases hscan : scanRecords file 12 [] with
      | none =>
        rw [hscan] at hc
        cases hc
      | some p =>
        obtain ⟨idx, endPos⟩ := p
        rw [hscan] at hc
        cases hc
        rfl

theorem flatten_frames_length (ds : List (List Nat)) :
    ((ds.map frame).flatten).length = (ds.map (fun d => 8 + d.length)).sum := by
  induction ds with
  | nil => rfl
  | cons d rest ih => simp [ih]

theorem forall₂_sum_len {ents : List DataFileEntry} {idx : Index}
    (h : List.Forall₂ (fun en p => (encodeEntry en).length = p.2.len) ents idx) :
    ((ents.map encodeEntry).map (fun d => 8 + d.length)).sum
      = (idx.map (fun p => 8 + p.2.len)).sum := by
  induction h with
  | nil => rfl
  | cons h1 h2 ih =>
    simp only [List.map_cons, List.sum_cons]
    rw [h1, ih]

theorem forall₂_weaken {α β : Type} {R S : α → β → Prop} :
    ∀ {l1 : List α} {l2 : List β}, (∀ a b, R a b → S a b) →
      List.Forall₂ R l1 l2 → List.Forall₂ S l1 l2 := by
  intro l1 l2 him h
  induction h with
  | nil => exact .nil
  | cons h1 h2 ih => exact .cons (him _ _ h1) ih

theorem forall₂_map_encode :
    ∀ {ents : List DataFileEntry} {idx : Index},
      List.Forall₂ (fun en p => en.key = p.1 ∧ (encodeEntry en).length = p.2.len ∧
        en.value.isSome) ents idx →
      (∀ en ∈ ents, EntryOk en) →
      List.Forall₂ (fun (d : List Nat) (p : List Nat × LogIndex) =>
        d.length = p.2.len ∧ ∃ en2, decodeEntry d = some en2 ∧ en2.key = p.1 ∧
          en2.value.isSome) (ents.map encodeEntry) idx := by
  intro ents idx h
  induction h with
  | nil =>
    intro _
    exact .nil
  | cons h1 h2 ih =>
    intro hok
    refine .cons ⟨h1.2.1, ?_⟩ (ih (fun x hx => hok x (List.mem_cons_of_mem _ hx)))
    have hok1 := hok _ (List.mem_cons_self _ _)
    exact ⟨_, decodeEntry_encodeEntry _ hok1.1 hok1.2.1, h1.1, h1.2.2⟩

/-! ## Concrete engines for the witnesses -/

/-- The engine produced by a fresh load of an empty file. -/
def eFresh : Engine :=
  ⟨header defaultCompactThreshold, [], 12, defaultCompactThreshold, 4⟩

theorem eFresh_load : Engine.load [] = .ok eFresh :=
  loadBytes_empty defaultCompactThreshold

theorem eFresh_reach : Reachable eFresh := Reachable.load eFresh eFresh_load

/-- `eFresh` after `set 0 [1] [2]`. -/
def eC3a : Engine := ((eFresh.set 0 [1] [2]).getD eFresh)

/-- `eC3a` after `set 0 [1] [3]`: two records for the same key, so the
compacted file differs from the live one. -/
def eC3 : Engine := ((eC3a.set 0 [1] [3]).getD eFresh)

theorem eC3a_set : eFresh.set 0 [1] [2] = some eC3a := by decide

theorem eC3_set : eC3a.set 0 [1] [3] = some eC3 := by decide

theorem eC3_reach : Reachable eC3 :=
  Reachable.set _ _ _ _ _
    (Reachable.set _ _ _ _ _ eFresh_reach (by decide) eC3a_set)
    (by decide) eC3_set

/-! ## The claims -/

/-- C1: for every finite single-threaded sequence of `set`/`del`
operations on a freshly loaded empty store and every key `k`, `get k`
returns `ok (some v)` where `v` is the value of the most recent
`set k v` not followed by a later `del k` (the abstract map `specModel`),
and `ok none` when no such `set` exists.  The `OpOk` side conditions are
the `usize` length bounds Rust guarantees for keys and values. -/
theorem claim_c1_history_get (ops : List Op) (hops : ∀ op ∈ ops, OpOk op)
    (k : List Nat) :
    ∃ e0 e, Engine.load [] = .ok e0 ∧ runOps e0 ops = some e ∧
      (e.get k).1 = .ok (specModel ops k) := by
  obtain ⟨e2, ents2, hr, hi2, hm2⟩ :=
    runOps_inv ops eFresh [] (inv_empty defaultCompactThreshold default_threshold_lt)
      hops
  refine ⟨eFresh, e2, eFresh_load, hr, ?_⟩
  rw [inv_get hi2 k, hm2 k]
  rfl

theorem claim_c1_history_get_witness :
    ∃ e0 e, Engine.load [] = .ok e0 ∧
      runOps e0 [Op.setOp 0 [1] [2], Op.setOp 1 [1] [3], Op.delOp 2 [7]] = some e ∧
      (e.get [1]).1
        = .ok (specModel [Op.setOp 0 [1] [2], Op.setOp 1 [1] [3], Op.delOp 2 [7]] [1]) :=
  claim_c1_history_get [Op.setOp 0 [1] [2], Op.setOp 1 [1] [3], Op.delOp 2 [7]]
    (by decide) [1]

/-- C2: for every engine reachable from a fresh load by `set`, `del` and
`compact`, reopening its file with `load` yields an engine whose `get`
results agree with the original on every key. -/
theorem claim_c2_reload (e : Engine) (h : Reachable e) :
    ∃ e2, Engine.load e.fileData = .ok e2 ∧ ∀ k, (e2.get k).1 = (e.get k).1 := by
  obtain ⟨entries, hi⟩ := reach_inv e h
  refine ⟨⟨logFile e.compactThreshold (entries.map encodeEntry),
    replayBodies 12 (entries.map encodeEntry) [],
    (logFile e.compactThreshold (entries.map encodeEntry)).length,
    e.compactThreshold, 4⟩, ?_, ?_⟩
  · show loadBytes e.fileData defaultCompactThreshold = .ok _
    rw [hi.hfile]
    exact loadBytes_log e.compactThreshold defaultCompactThreshold hi.hthr entries hi.hok
  · intro k
    have hi2 := inv_load e.compactThreshold hi.hthr entries hi.hok
    rw [inv_get hi2 k, inv_get hi k]

theorem claim_c2_reload_witness :
    ∃ e2, Engine.load eFresh.fileData = .ok e2 ∧ ∀ k, (e2.get k).1 = (eFresh.get k).1 :=
  claim_c2_reload eFresh eFresh_reach

/-- C7: `del` never invokes compaction — its result is always exactly the
old state with one tombstone frame appended, the tracked size grown by
8 plus the encoded body length, and the key removed from the index, with
the threshold and reader pool untouched, whatever the file size and
threshold are. -/
theorem claim_c7_del (e : Engine) (t : Int) (k : List Nat) :
    (e.del t k).fileData = e.fileData ++ frame (encodeEntry ⟨t, k, none⟩) ∧
    (e.del t k).fileSize = e.fileSize + 8 + (encodeEntry ⟨t, k, none⟩).length ∧
    (e.del t k).index = idxRemove e.index k ∧
    idxLookup (e.del t k).index k = none ∧
    (e.del t k).compactThreshold = e.compactThreshold ∧
    (e.del t k).readerPool = e.readerPool := by
  refine ⟨rfl, rfl, rfl, ?_, rfl, rfl⟩
  show idxLookup (idxRemove e.index k) k = none
  rw [idxLookup_idxRemove, if_pos rfl]

/-- C8: decoding the encoding of any record yields the record back
(for timestamps in `i64` range and `usize`-bounded lengths, which Rust
guarantees), and a tombstone's encoding differs from that of an empty
value. -/
theorem claim_c8_roundtrip (t : Int) (k : List Nat) (v : Option (List Nat))
    (ht0 : -(2 ^ 63) ≤ t) (ht1 : t < 2 ^ 63) (hk : k.length < U64)
    (hv : valueLenOk v) :
    decodeEntry (encodeEntry ⟨t, k, v⟩) = some ⟨t, k, v⟩ ∧
    encodeEntry ⟨t, k, none⟩ ≠ encodeEntry ⟨t, k, some []⟩ := by
  constructor
  · exact decodeEntry_encodeEntry_exact ⟨t, k, v⟩ ht0 ht1 hk hv
  · intro he
    have h1 : decodeEntry (encodeEntry ⟨t, k, none⟩) = some ⟨t, k, none⟩ :=
      decodeEntry_encodeEntry_exact _ ht0 ht1 hk trivial
    have h2 : decodeEntry (encodeEntry ⟨t, k, some []⟩) = some ⟨t, k, some []⟩ :=
      decodeEntry_encodeEntry_exact _ ht0 ht1 hk
        (show ([] : List Nat).length < U64 by norm_num [U64])
    rw [he, h2] at h1
    simp at h1

theorem claim_c8_roundtrip_witness :
    decodeEntry (encodeEntry ⟨5, [1], some [2]⟩) = some ⟨5, [1], some [2]⟩ ∧
    encodeEntry ⟨5, [1], none⟩ ≠ encodeEntry ⟨5, [1], some []⟩ :=
  claim_c8_roundtrip 5 [1] (some [2]) (by decide) (by decide) (by decide) (by decide)

/-- C9: `load_with_threshold` on a new (empty) file creates the header
with threshold `T` and uses it; on an existing file the stored threshold
is used and `T` is ignored (the results for different `T` coincide); and
`load` is `load_with_threshold` with the default 1,048,576 bytes. -/
theorem claim_c9_load_threshold :
    (∀ T : Nat, Engine.loadWithThreshold [] T = .ok ⟨header T, [], 12, T, 4⟩) ∧
    (∀ (file : List Nat) (T1 T2 : Nat) (e1 e2 : Engine), 0 < file.length →
      Engine.loadWithThreshold file T1 = .ok e1 →
      Engine.loadWithThreshold file T2 = .ok e2 →
      e1 = e2 ∧ e1.compactThreshold = headerThreshold file) ∧
    (∀ file : List Nat, Engine.load file = Engine.loadWithThreshold file 1048576) := by
  refine ⟨?_, ?_, ?_⟩
  · intro T
    exact loadBytes_empty T
  · intro file T1 T2 e1 e2 h0 h1 h2
    have hsame : Engine.loadWithThreshold file T1 = Engine.loadWithThreshold file T2 :=
      loadBytes_threshold_irrelevant T1 T2 h0
    rw [hsame, h2] at h1
    cases h1
    exact ⟨rfl, loadBytes_ok_threshold h0 h2⟩
  · intro file
    rfl

/-- The engine a load of a records-free 64-threshold file produces. -/
def c9E : Engine := ⟨logFile 64 [], [], (logFile 64 []).length, 64, 4⟩

theorem claim_c9_load_threshold_witness :
    c9E = c9E ∧ c9E.compactThreshold = headerThreshold (logFile 64 []) :=
  claim_c9_load_threshold.2.1 (logFile 64 []) 1 2 c9E c9E
    (by decide)
    (loadBytes_log 64 1 (by norm_num [U64]) [] (by simp))
    (loadBytes_log 64 2 (by norm_num [U64]) [] (by simp))

theorem getPool_le (pool : Nat) (l r : Bool) (h : pool ≤ 8) : getPool pool l r ≤ 8 := by
  unfold getPool
  split
  · split
    · split
      · omega
      · omega
    · omega
  · exact h

/-- C10: `get` modifies no engine state other than the reader pool — the
index, file bytes, tracked size and threshold are unchanged — and the
pool stays bounded by 8 handles. -/
theorem claim_c10_get_frame (e : Engine) (k : List Nat) (hpool : e.readerPool ≤ 8) :
    (e.get k).2.fileData = e.fileData ∧
    (e.get k).2.index = e.index ∧
    (e.get k).2.fileSize = e.fileSize ∧
    (e.get k).2.compactThreshold = e.compactThreshold ∧
    (e.get k).2.readerPool ≤ 8 := by
  unfold Engine.get
  cases hl : idxLookup e.index k with
  | none => exact ⟨rfl, rfl, rfl, rfl, hpool⟩
  | some li =>
    show e.fileData = e.fileData ∧ e.index = e.index ∧ e.fileSize = e.fileSize ∧
      e.compactThreshold = e.compactThreshold ∧
      getPool e.readerPool true ((readAt e.fileData li.pos li.len).isSome) ≤ 8
    exact ⟨rfl, rfl, rfl, rfl, getPool_le _ _ _ hpool⟩

theorem claim_c10_get_frame_witness :
    (eFresh.get [1]).2.fileData = eFresh.fileData ∧
    (eFresh.get [1]).2.index = eFresh.index ∧
    (eFresh.get [1]).2.fileSize = eFresh.fileSize ∧
    (eFresh.get [1]).2.compactThreshold = eFresh.compactThreshold ∧
    (eFresh.get [1]).2.readerPool ≤ 8 :=
  claim_c10_get_frame eFresh [1] (by decide)

theorem compact_eq (e : Engine) :
    e.compact =
      match compactEntries e.fileData e.index [] 12 with
      | none => none
      | some (body, newIdx, newSize) =>
        if newSize * 4 % U64 > e.fileSize * 3 % U64 then
          some ⟨header (min (e.compactThreshold * 2) (U64 - 1)) ++ body, newIdx,
                newSize, min (e.compactThreshold * 2) (U64 - 1), 4⟩
        else
          some ⟨header e.compactThreshold ++ body, newIdx, newSize,
                e.compactThreshold, 4⟩ := rfl

/-- C4: on every successful `compact` from a reachable state, writing
`S_before` for the tracked size at entry and `S_after` for the size at
exit, if `4 * S_after > 3 * S_before` in `u64` arithmetic then the
threshold becomes its old value doubled with saturation at `u64::MAX` and
the new file's header word carries that new value; otherwise the
threshold and the header's threshold word are unchanged. -/
theorem claim_c4_adaptive_threshold (e e2 : Engine) (hre : Reachable e)
    (hc : e.compact = some e2) :
    (e2.fileSize * 4 % U64 > e.fileSize * 3 % U64 →
      e2.compactThreshold = min (e.compactThreshold * 2) (U64 - 1) ∧
      headerThreshold e2.fileData = e2.compactThreshold) ∧
    (¬ e2.fileSize * 4 % U64 > e.fileSize * 3 % U64 →
      e2.compactThreshold = e.compactThreshold ∧
      headerThreshold e2.fileData = headerThreshold e.fileData) := by
  obtain ⟨entries, hi⟩ := reach_inv e hre
  rw [compact_eq] at hc
  cases hce : compactEntries e.fileData e.index [] 12 with
  | none =>
    rw [hce] at hc
    cases hc
  | some trip =>
    obtain ⟨body, newIdx, newSize⟩ := trip
    rw [hce] at hc
    have hmin : min (e.compactThreshold * 2) (U64 - 1) < U64 := by
      have h1 := min_le_right (e.compactThreshold * 2) (U64 - 1)
      have h2 : (0 : Nat) < U64 := by norm_num [U64]
      omega
    by_cases hcond : newSize * 4 % U64 > e.fileSize * 3 % U64
    · have hc2 : some (⟨header (min (e.compactThreshold * 2) (U64 - 1)) ++ body,
          newIdx, newSize, min (e.compactThreshold * 2) (U64 - 1), 4⟩ : Engine)
            = some e2 := by
        rw [← hc]
        show _ = (if newSize * 4 % U64 > e.fileSize * 3 % U64 then _ else _)
        rw [if_pos hcond]
      cases hc2
      constructor
      · intro _
        refine ⟨rfl, ?_⟩
        show headerThreshold (header (min (e.compactThreshold * 2) (U64 - 1)) ++ body)
          = min (e.compactThreshold * 2) (U64 - 1)
        rw [headerThreshold_header]
        exact Nat.mod_eq_of_lt hmin
      · intro hneg
        exact absurd hcond hneg
    · have hc2 : some (⟨header e.compactThreshold ++ body, newIdx, newSize,
          e.compactThreshold, 4⟩ : Engine) = some e2 := by
        rw [← hc]
        show _ = (if newSize * 4 % U64 > e.fileSize * 3 % U64 then _ else _)
        rw [if_neg hcond]
      cases hc2
      constructor
      · intro hpos
        exact absurd hpos hcond
      · intro _
        refine ⟨rfl, ?_⟩
        show headerThreshold (header e.compactThreshold ++ body)
          = headerThreshold e.fileData
        rw [headerThreshold_header, hi.hfile, headerThreshold_logFile hi.hthr]
        exact Nat.mod_eq_of_lt hi.hthr

/-- C5: immediately after every successful `compact` from a reachable
state the data file is a header followed by exactly one framed record per
live key of the (new) index, each record's decoded key matching its index
entry, and the file length is exactly `12 + Σ over live keys (8 + body
length)`. -/
theorem claim_c5_compact_file (e e2 : Engine) (hre : Reachable e)
    (hc : e.compact = some e2) :
    e2.fileData.length = 12 + (e2.index.map (fun p => 8 + p.2.len)).sum ∧
    ∃ ds : List (List Nat),
      e2.fileData = header e2.compactThreshold ++ (ds.map frame).flatten ∧
      List.Forall₂ (fun (d : List Nat) (p : List Nat × LogIndex) =>
        d.length = p.2.len ∧ ∃ en, decodeEntry d = some en ∧ en.key = p.1 ∧
          en.value.isSome) ds e2.index := by
  obtain ⟨entries, hi⟩ := reach_inv e hre
  have hm := inv_matches hi
  have hgood : ∀ p ∈ e.index, ∃ t v, mFold entries p.1 = some v ∧
      EntryOk ⟨t, p.1, some v⟩ ∧
      readAt e.fileData p.2.pos p.2.len = some (encodeEntry ⟨t, p.1, some v⟩) := by
    intro p hp
    exact (hm p.1).2 p.2 (idxLookup_of_mem hi.hnodup hp)
  obtain ⟨ents2, newIdx, heq, hok2, hkeys, hreplay, hmf, hfa⟩ :=
    compactEntries_spec e.fileData (mFold entries) e.index [] 12 hgood hi.hnodup
  rw [compact_eq, heq] at hc
  have hsum : ((ents2.map encodeEntry).map frame).flatten.length
      = (newIdx.map (fun p => 8 + p.2.len)).sum := by
    rw [flatten_frames_length]
    exact forall₂_sum_len (forall₂_weaken (fun a b hr => hr.2.1) hfa)
  have hfa2 := forall₂_map_encode hfa hok2
  by_cases hcond : (12 + ((ents2.map encodeEntry).map frame).flatten.length) * 4 % U64
      > e.fileSize * 3 % U64
  · have hc2 : some (⟨header (min (e.compactThreshold * 2) (U64 - 1))
          ++ ([] ++ ((ents2.map encodeEntry).map frame).flatten),
        newIdx, 12 + ((ents2.map encodeEntry).map frame).flatten.length,
        min (e.compactThreshold * 2) (U64 - 1), 4⟩ : Engine) = some e2 := by
      rw [← hc]
      show _ = (if (12 + ((ents2.map encodeEntry).map frame).flatten.length) * 4 % U64
          > e.fileSize * 3 % U64 then _ else _)
      rw [if_pos hcond]
    cases hc2
    refine ⟨?_, ents2.map encodeEntry, by simp, hfa2⟩
    show (header _ ++ ([] ++ ((ents2.map encodeEntry).map frame).flatten)).length
      = 12 + (newIdx.map (fun p => 8 + p.2.len)).sum
    rw [← hsum]
    simp
  · have hc2 : some (⟨header e.compactThreshold
          ++ ([] ++ ((ents2.map encodeEntry).map frame).flatten),
        newIdx, 12 + ((ents2.map encodeEntry).map frame).flatten.length,
        e.compactThreshold, 4⟩ : Engine) = some e2 := by
      rw [← hc]
      show _ = (if (12 + ((ents2.map encodeEntry).map frame).flatten.length) * 4 % U64
          > e.fileSize * 3 % U64 then _ else _)
      rw [if_neg hcond]
    cases hc2
    refine ⟨?_, ents2.map encodeEntry, by simp, hfa2⟩
    show (header _ ++ ([] ++ ((ents2.map encodeEntry).map frame).flatten)).length
      = 12 + (newIdx.map (fun p => 8 + p.2.len)).sum
    rw [← hsum]
    simp

/-- `eFresh` after a manual `compact` (empty index, so the new file is
bare header and the threshold doubles). -/
def eFreshC : Engine := (eFresh.compact).getD eFresh

theorem eFresh_compact : eFresh.compact = some eFreshC := by decide

theorem claim_c4_adaptive_threshold_witness :
    (eFreshC.fileSize * 4 % U64 > eFresh.fileSize * 3 % U64 →
      eFreshC.compactThreshold = min (eFresh.compactThreshold * 2) (U64 - 1) ∧
      headerThreshold eFreshC.fileData = eFreshC.compactThreshold) ∧
    (¬ eFreshC.fileSize * 4 % U64 > eFresh.fileSize * 3 % U64 →
      eFreshC.compactThreshold = eFresh.compactThreshold ∧
      headerThreshold eFreshC.fileData = headerThreshold eFresh.fileData) :=
  claim_c4_adaptive_threshold eFresh eFreshC eFresh_reach eFresh_compact

/-- `eC3` after a manual `compact` (one live key). -/
def eC3C : Engine := (eC3.compact).getD eFresh

theorem eC3_compact : eC3.compact = some eC3C := by decide

theorem claim_c5_compact_file_witness :
    eC3C.fileData.length = 12 + (eC3C.index.map (fun p => 8 + p.2.len)).sum ∧
    ∃ ds : List (List Nat),
      eC3C.fileData = header eC3C.compactThreshold ++ (ds.map frame).flatten ∧
      List.Forall₂ (fun (d : List Nat) (p : List Nat × LogIndex) =>
        d.length = p.2.len ∧ ∃ en, decodeEntry d = some en ∧ en.key = p.1 ∧
          en.value.isSome) ds eC3C.index :=
  claim_c5_compact_file eC3 eC3C eC3_reach eC3_compact

/-- C6: in the absence of OS-level I/O failures, `load` fails exactly on
a non-empty file shorter than 12 bytes (`missing header`), a wrong magic
(`unsupported format`), or a complete record body that fails to decode
(`invalid data`); a file whose scan completes opens successfully with
`current_size` the stream position reached, and a torn tail — truncation
at either the 8-byte length read or the body read — is not an error: the
engine opens with the state of all complete records and `current_size`
equal to the position `read_exact` reached (the file end). -/
theorem claim_c6_load_errors :
    (∀ (file : List Nat) (T : Nat), 0 < file.length → file.length < 12 →
      loadBytes file T = .error "invalid data.db: missing header") ∧
    (∀ (file : List Nat) (T : Nat), 12 ≤ file.length → file.take 4 ≠ magicBytes →
      loadBytes file T
        = .error "invalid data.db: unsupported format (missing KVS1 header)") ∧
    (∀ (file : List Nat) (T : Nat) (idx : Index) (endPos : Nat),
      12 ≤ file.length → file.take 4 = magicBytes →
      scanRecords file 12 [] = some (idx, endPos) →
      loadBytes file T = .ok ⟨file, idx, endPos, headerThreshold file, 4⟩) ∧
    (∀ (T2 : Nat) (ents : List DataFileEntry) (bad rest : List Nat) (T : Nat),
      (∀ en ∈ ents, EntryOk en) → bad.length < U64 → decodeEntry bad = none →
      loadBytes (logFile T2 (ents.map encodeEntry) ++ (frame bad ++ rest)) T
        = .error "invalid data") ∧
    (∀ (T2 : Nat) (ents : List DataFileEntry) (tail : List Nat) (T : Nat),
      T2 < U64 → (∀ en ∈ ents, EntryOk en) → TornTail tail →
      loadBytes (logFile T2 (ents.map encodeEntry) ++ tail) T
        = .ok ⟨logFile T2 (ents.map encodeEntry) ++ tail,
               replayBodies 12 (ents.map encodeEntry) [],
               (logFile T2 (ents.map encodeEntry) ++ tail).length, T2, 4⟩) := by
  refine ⟨?_, ?_, ?_, ?_, ?_⟩
  · intro file T h0 h12
    unfold loadBytes
    rw [if_neg (by omega), if_pos h12]
  · intro file T h12 hmagic
    unfold loadBytes
    rw [if_neg (by omega), if_neg (by omega), if_pos hmagic]
  · intro file T idx endPos h12 hmagic hscan
    exact loadBytes_scan_some T h12 hmagic hscan
  · intro T2 ents bad rest T hok hblen hbad
    have hgood : ∀ b ∈ ents.map encodeEntry, GoodBody b := by
      intro b hb
      obtain ⟨en, hen, rfl⟩ := List.mem_map.mp hb
      exact entryOk_goodBody (hok en hen)
    have hscan := scanRecords_decodefail T2 (ents.map encodeEntry) bad rest hgood hblen hbad
    have hlen := logFile_length T2 (ents.map encodeEntry)
    refine loadBytes_scan_none T ?_ ?_ hscan
    · simp only [List.length_append]
      omega
    · rw [take4_append _ (by omega), logFile_take4]
  · intro T2 ents tail T hT2 hok htorn
    have hgood : ∀ b ∈ ents.map encodeEntry, GoodBody b := by
      intro b hb
      obtain ⟨en, hen, rfl⟩ := List.mem_map.mp hb
      exact entryOk_goodBody (hok en hen)
    exact loadBytes_torn T2 (ents.map encodeEntry) tail T hT2 hgood htorn

theorem claim_c6_load_errors_witness :
    loadBytes [1, 2, 3] 7 = .error "invalid data.db: missing header" ∧
    loadBytes (List.replicate 12 9) 7
      = .error "invalid data.db: unsupported format (missing KVS1 header)" ∧
    loadBytes (logFile 64 []) 7
      = .ok ⟨logFile 64 [], [], 12, headerThreshold (logFile 64 []), 4⟩ ∧
    loadBytes (logFile 64 [] ++ (frame [9] ++ [])) 7 = .error "invalid data" ∧
    loadBytes (logFile 64 [] ++ [5]) 7
      = .ok ⟨logFile 64 [] ++ [5], replayBodies 12 [] [],
             (logFile 64 [] ++ [5]).length, 64, 4⟩ :=
  ⟨claim_c6_load_errors.1 [1, 2, 3] 7 (by decide) (by decide),
   claim_c6_load_errors.2.1 (List.replicate 12 9) 7 (by decide) (by decide),
   claim_c6_load_errors.2.2.1 (logFile 64 []) 7 [] 12 (by decide) (by decide)
     (by decide),
   claim_c6_load_errors.2.2.2.1 64 [] [9] [] 7 (by simp) (by decide) (by decide),
   claim_c6_load_errors.2.2.2.2 64 [] [5] 7 (by norm_num [U64]) (by simp) (by decide)⟩

theorem compactF_pre_rename (e : Engine) (tmp0 : Option (List Nat)) (fail : Option CStep)
    (hpre : fail = none ∨ fail = some CStep.openTmp ∨ fail = some CStep.writeHeaderTmp ∨
      (∃ j, fail = some (CStep.copyEntry j)) ∨ fail = some CStep.flushTmp ∨
      fail = some CStep.renameStep)
    (herr : (compactF e tmp0 fail).ok = false) :
    ∃ tmpv, compactF e tmp0 fail
      = ⟨false, e.fileData, tmpv, e.index, e.fileSize, e.compactThreshold⟩ := by
  rcases hpre with hf | hf | hf | ⟨j, hf⟩ | hf | hf
  · subst hf
    cases hcl : copyLoop e.fileData (failIdx none) e.index 0 [] [] 12 with
    | error bp =>
      exact ⟨some (header e.compactThreshold ++ bp), by simp [compactF, hcl]⟩
    | ok trip =>
      obtain ⟨body, newIdx, newSize⟩ := trip
      exfalso
      have hok2 : (compactF e tmp0 none).ok = true := by
        by_cases h7 : newSize * 4 % U64 > e.fileSize * 3 % U64
        · simp [compactF, hcl, h7]
        · simp [compactF, hcl, h7]
      rw [herr] at hok2
      cases hok2
  · subst hf
    exact ⟨tmp0, by simp [compactF]⟩
  · subst hf
    exact ⟨some [], by simp [compactF]⟩
  · subst hf
    cases hcl : copyLoop e.fileData (failIdx (some (CStep.copyEntry j)))
        e.index 0 [] [] 12 with
    | error bp =>
      exact ⟨some (header e.compactThreshold ++ bp), by simp [compactF, hcl]⟩
    | ok trip =>
      obtain ⟨body, newIdx, newSize⟩ := trip
      exfalso
      have hok2 : (compactF e tmp0 (some (CStep.copyEntry j))).ok = true := by
        by_cases h7 : newSize * 4 % U64 > e.fileSize * 3 % U64
        · simp [compactF, hcl, h7]
        · simp [compactF, hcl, h7]
      rw [herr] at hok2
      cases hok2
  · subst hf
    cases hcl : copyLoop e.fileData (failIdx (some CStep.flushTmp)) e.index 0 [] [] 12 with
    | error bp =>
      exact ⟨some (header e.compactThreshold ++ bp), by simp [compactF, hcl]⟩
    | ok trip =>
      obtain ⟨body, newIdx, newSize⟩ := trip
      exact ⟨some (header e.compactThreshold ++ body), by simp [compactF, hcl]⟩
  · subst hf
    cases hcl : copyLoop e.fileData (failIdx (some CStep.renameStep)) e.index 0 [] [] 12 with
    | error bp =>
      exact ⟨some (header e.compactThreshold ++ bp), by simp [compactF, hcl]⟩
    | ok trip =>
      obtain ⟨body, newIdx, newSize⟩ := trip
      exact ⟨some (header e.compactThreshold ++ body), by simp [compactF, hcl]⟩

/-- C3 counterexample: on a reachable engine holding two records for one
key, injecting an I/O failure at the live-handle reopen — the step right
after the rename, engine.rs line 315 — makes `compact` return an error
while the live file has already been replaced by the compacted file,
contradicting the claim that an error from `compact` leaves the live
file untouched. -/
theorem claim_c3_counterexample :
    Reachable eC3 ∧
    (compactF eC3 none (some CStep.reopen)).ok = false ∧
    (compactF eC3 none (some CStep.reopen)).live ≠ eC3.fileData :=
  ⟨eC3_reach, by decide, by decide⟩

/-- C3 (amended): whenever `compact` returns an error caused by a failure
at or before the rename — creating or writing or flushing the tmp file,
reading a record from the live file, or the rename itself — the live
file's bytes, the index, the tracked size and the threshold are exactly
as before the call (hence every subsequent `get` result is unchanged),
and only the tmp file may differ.  A failure after the rename succeeds
(the live-handle reopen or the threshold persist) is not covered: there
the live file has already been replaced. -/
theorem claim_c3_amended (e : Engine) (tmp0 : Option (List Nat)) (fail : Option CStep)
    (hpre : fail = none ∨ fail = some CStep.openTmp ∨ fail = some CStep.writeHeaderTmp ∨
      (∃ j, fail = some (CStep.copyEntry j)) ∨ fail = some CStep.flushTmp ∨
      fail = some CStep.renameStep)
    (herr : (compactF e tmp0 fail).ok = false) :
    (compactF e tmp0 fail).live = e.fileData ∧
    (compactF e tmp0 fail).index = e.index ∧
    (compactF e tmp0 fail).fileSize = e.fileSize ∧
    (compactF e tmp0 fail).threshold = e.compactThreshold ∧
    ∀ k, getPure (compactF e tmp0 fail).live (compactF e tmp0 fail).index k
      = getPure e.fileData e.index k := by
  obtain ⟨tmpv, hout⟩ := compactF_pre_rename e tmp0 fail hpre herr
  rw [hout]
  exact ⟨rfl, rfl, rfl, rfl, fun k => rfl⟩

theorem claim_c3_amended_witness :
    (compactF eC3 none (some CStep.renameStep)).live = eC3.fileData ∧
    (compactF eC3 none (some CStep.renameStep)).index = eC3.index ∧
    (compactF eC3 none (some CStep.renameStep)).fileSize = eC3.fileSize ∧
    (compactF eC3 none (some CStep.renameStep)).threshold = eC3.compactThreshold ∧
    ∀ k, getPure (compactF eC3 none (some CStep.renameStep)).live
        (compactF eC3 none (some CStep.renameStep)).index k
      = getPure eC3.fileData eC3.index k :=
  claim_c3_amended eC3 none (some CStep.renameStep)
    (Or.inr (Or.inr (Or.inr (Or.inr (Or.inr rfl))))) (by decide)

end KV
